import Mathlib

/-!
# Verification of the pyjson fault-tolerant JSON extractor

Shallow embedding of `src/pyjson/scanner.py` and `src/pyjson/parser.py`.
Python strings are modelled as `List Char`, byte/character offsets as `Nat`
(Python column arithmetic, which can go negative after a parser rewind, as
`Int`).  Python exceptions are modelled by an explicit error type threaded
through every operation; mutation is modelled by explicit state passing.
Unbounded `while` loops of the scanner are translated by well-founded
recursion on the number of unread characters; the mutually recursive
parser rules are translated with an explicit fuel parameter.
-/

namespace PyJson

/-- Character lookup `source[i]` for guarded accesses, and the scanner's
`_peek`, which yields `"\0"` out of range (`scanner.py` line 140). -/
def charAt (src : List Char) (i : Nat) : Char :=
  src.getD i '\x00'

/-- Python slice `source[a:b]` (with `0 ≤ a ≤ b`; Python clamps, so does
`drop`/`take`). -/
def slice (src : List Char) (a b : Nat) : List Char :=
  (src.drop a).take (b - a)

/-- Decimal digit accumulator over a digit list. -/
def digitsToNat (cs : List Char) : Nat :=
  cs.foldl (fun acc c => acc * 10 + (c.toNat - '0'.toNat)) 0

/-- Python `int(text)` on the texts the number scanner produces:
an optional sign followed by decimal digits. -/
def pyInt (cs : List Char) : Int :=
  match cs with
  | '+' :: ds => (digitsToNat ds : Int)
  | '-' :: ds => -(digitsToNat ds : Int)
  | ds => (digitsToNat ds : Int)

def isHexDigit (c : Char) : Bool :=
  c.isDigit || ('a' ≤ c && c ≤ 'f') || ('A' ≤ c && c ≤ 'F')

def hexVal (c : Char) : Nat :=
  if c.isDigit then c.toNat - '0'.toNat
  else if 'a' ≤ c && c ≤ 'f' then c.toNat - 'a'.toNat + 10
  else c.toNat - 'A'.toNat + 10

def hexDigitsToNat (cs : List Char) : Nat :=
  cs.foldl (fun acc c => acc * 16 + hexVal c) 0

/-- Python `int(text, 16)` (`scanner.py` line 239): an optional sign, an
optional `0x`/`0X` prefix, then at least one hexadecimal digit; anything
else raises `ValueError`.  (Exotic Python extras such as interior
underscores or surrounding whitespace are not modelled; no claim
exercises them.) -/
def pyIntHex : List Char → Option Int
  | '+' :: rest => (pyIntHexBody rest).map (fun n => (n : Int))
  | '-' :: rest => (pyIntHexBody rest).map (fun n => -(n : Int))
  | rest => (pyIntHexBody rest).map (fun n => (n : Int))
where
  pyIntHexBody : List Char → Option Nat
    | '0' :: 'x' :: rest =>
        if rest ≠ [] ∧ rest.all isHexDigit then some (hexDigitsToNat rest) else none
    | '0' :: 'X' :: rest =>
        if rest ≠ [] ∧ rest.all isHexDigit then some (hexDigitsToNat rest) else none
    | rest =>
        if rest ≠ [] ∧ rest.all isHexDigit then some (hexDigitsToNat rest) else none

/-- Python `chr(n)`: valid for `0 ≤ n < 0x110000`, otherwise `ValueError`.
(Lean `Char` cannot carry lone surrogates; `Char.ofNat` maps those to
`'\0'` — a divergence no claim exercises.) -/
def pyChr (n : Int) : Option Char :=
  if 0 ≤ n ∧ n < 0x110000 then some (Char.ofNat n.toNat) else none

/-! ## Tokens (`scanner.py` lines 5–64) -/

inductive TokType where
  | leftSquareBracket | rightSquareBracket | leftBrace | rightBrace
  | comma | colon | quotes
  | string | number
  | null | false | true | nan | infinity | minusInfinity
  | garbage
  | eof
deriving DecidableEq, Repr

/-- Token `literal` payloads: Python `None`, `int`, `float` (kept as the
raw literal text — IEEE-754 value semantics are outside the claims), or a
decoded string. -/
inductive Lit where
  | none
  | int (n : Int)
  | float (text : List Char)
  | str (s : List Char)
deriving DecidableEq, Repr

structure Token where
  type : TokType
  lexeme : List Char
  literal : Lit
  start : Nat
  line : Nat
  column : Int
deriving DecidableEq, Repr

/-- `CHAR_TOKENS` (`scanner.py` lines 46–54). -/
def charTok : Char → Option TokType
  | '[' => some .leftSquareBracket
  | ']' => some .rightSquareBracket
  | '{' => some .leftBrace
  | '}' => some .rightBrace
  | ',' => some .comma
  | ':' => some .colon
  | '"' => some .quotes
  | _ => Option.none

/-- `KEYWORDS` (`scanner.py` lines 33–39); a failed lookup is garbage. -/
def keywordTok (name : List Char) : TokType :=
  if name = "null".toList then .null
  else if name = "false".toList then .false
  else if name = "true".toList then .true
  else if name = "NaN".toList then .nan
  else if name = "Infinity".toList then .infinity
  else .garbage

/-- `SIGNED_KEYWORDS` (`scanner.py` lines 41–44). -/
def signedKeywordTok (sign : Char) (name : List Char) : TokType :=
  if name = "NaN".toList then .nan
  else if name = "Infinity".toList then
    (if sign = '-' then .minusInfinity else .infinity)
  else .garbage

/-! ## Scanner state (`scanner.py` lines 67–74) -/

structure ScanS where
  source : List Char
  start : Nat
  current : Nat
  line : Nat
  lineStart : Nat
  garbage : Bool
deriving DecidableEq, Repr

namespace ScanS

/-- `_is_at_end` (line 89). -/
def atEnd (s : ScanS) : Bool := s.source.length ≤ s.current

/-- `_peek(lookahead)` (line 140): `source[current + lookahead - 1]`,
`'\0'` out of range. -/
def peek (s : ScanS) (lookahead : Nat := 1) : Char :=
  charAt s.source (s.current + lookahead - 1)

/-- `_advance` (line 125): bump the cursor (the consumed character is read
separately via `charAt`; all scanner uses are bounds-guarded). -/
def bump (s : ScanS) : ScanS := { s with current := s.current + 1 }

/-- `_new_token` (line 129). -/
def newToken (s : ScanS) (t : TokType) (lit : Lit := .none) : Token :=
  { type := t
    lexeme := slice s.source s.start s.current
    literal := lit
    start := s.start
    line := s.line
    column := (s.current : Int) - (s.lineStart : Int) }

/-!  Unbounded `while` loops are written as structurally recursive
functions on a fuel argument, applied to a fuel that provably dominates
the loop's iteration count (each iteration consumes at least one source
character).  An `_unfold` lemma recovers the literal loop equation and an
`_induct` principle the corresponding induction, so the fuel never
appears in any statement about the scanner. -/

/-- The `while self._peek().isdigit(): self._advance()` loops of
`_number` (lines 147, 155, 168). -/
def skipDigitsF : Nat → ScanS → ScanS
  | 0, s => s
  | f+1, s =>
    if s.current < s.source.length ∧ (s.peek).isDigit then skipDigitsF f s.bump else s

def skipDigits (s : ScanS) : ScanS := skipDigitsF (s.source.length - s.current) s

theorem skipDigitsF_congr : ∀ (f g : Nat) (s : ScanS), s.source.length - s.current ≤ f →
    s.source.length - s.current ≤ g → skipDigitsF f s = skipDigitsF g s := by
  intro f
  induction f with
  | zero =>
      intro g s hf hg
      cases g with
      | zero => rfl
      | succ g =>
          simp only [skipDigitsF]
          rw [if_neg (fun hc => absurd hc.1 (by omega))]
  | succ f ih =>
      intro g s hf hg
      cases g with
      | zero =>
          simp only [skipDigitsF]
          rw [if_neg (fun hc => absurd hc.1 (by omega))]
      | succ g =>
          simp only [skipDigitsF]
          split_ifs with hc
          · exact ih g s.bump (by simp only [bump]; omega) (by simp only [bump]; omega)
          · rfl

theorem skipDigits_unfold (s : ScanS) :
    skipDigits s =
      if s.current < s.source.length ∧ (s.peek).isDigit then skipDigits s.bump else s := by
  unfold skipDigits
  cases hf : s.source.length - s.current with
  | zero =>
      simp only [skipDigitsF]
      rw [if_neg (fun hc => absurd hc.1 (by omega))]
  | succ f =>
      simp only [skipDigitsF]
      split_ifs with hc
      · exact skipDigitsF_congr f (s.bump.source.length - s.bump.current) s.bump
          (by simp only [bump]; omega) (le_refl _)
      · rfl

theorem skipDigits_induct (motive : ScanS → Prop)
    (h1 : ∀ s, (s.current < s.source.length ∧ (s.peek).isDigit) → motive s.bump → motive s)
    (h2 : ∀ s, ¬(s.current < s.source.length ∧ (s.peek).isDigit) → motive s) :
    ∀ s, motive s := by
  intro s
  generalize hm : s.source.length - s.current = n
  induction n generalizing s with
  | zero => exact h2 s (by intro hc; omega)
  | succ n ih =>
      by_cases hc : s.current < s.source.length ∧ (s.peek).isDigit
      · exact h1 s hc (ih s.bump (by simp only [bump]; omega))
      · exact h2 s hc

/-- The `while self._peek().isalpha(): self._advance()` loop of
`_keyword` (line 180). -/
def skipAlphaF : Nat → ScanS → ScanS
  | 0, s => s
  | f+1, s =>
    if s.current < s.source.length ∧ (s.peek).isAlpha then skipAlphaF f s.bump else s

def skipAlpha (s : ScanS) : ScanS := skipAlphaF (s.source.length - s.current) s

theorem skipAlphaF_congr : ∀ (f g : Nat) (s : ScanS), s.source.length - s.current ≤ f →
    s.source.length - s.current ≤ g → skipAlphaF f s = skipAlphaF g s := by
  intro f
  induction f with
  | zero =>
      intro g s hf hg
      cases g with
      | zero => rfl
      | succ g =>
          simp only [skipAlphaF]
          rw [if_neg (fun hc => absurd hc.1 (by omega))]
  | succ f ih =>
      intro g s hf hg
      cases g with
      | zero =>
          simp only [skipAlphaF]
          rw [if_neg (fun hc => absurd hc.1 (by omega))]
      | succ g =>
          simp only [skipAlphaF]
          split_ifs with hc
          · exact ih g s.bump (by simp only [bump]; omega) (by simp only [bump]; omega)
          · rfl

theorem skipAlpha_unfold (s : ScanS) :
    skipAlpha s =
      if s.current < s.source.length ∧ (s.peek).isAlpha then skipAlpha s.bump else s := by
  unfold skipAlpha
  cases hf : s.source.length - s.current with
  | zero =>
      simp only [skipAlphaF]
      rw [if_neg (fun hc => absurd hc.1 (by omega))]
  | succ f =>
      simp only [skipAlphaF]
      split_ifs with hc
      · exact skipAlphaF_congr f (s.bump.source.length - s.bump.current) s.bump
          (by simp only [bump]; omega) (le_refl _)
      · rfl

theorem skipAlpha_induct (motive : ScanS → Prop)
    (h1 : ∀ s, (s.current < s.source.length ∧ (s.peek).isAlpha) → motive s.bump → motive s)
    (h2 : ∀ s, ¬(s.current < s.source.length ∧ (s.peek).isAlpha) → motive s) :
    ∀ s, motive s := by
  intro s
  generalize hm : s.source.length - s.current = n
  induction n generalizing s with
  | zero => exact h2 s (by intro hc; omega)
  | succ n ih =>
      by_cases hc : s.current < s.source.length ∧ (s.peek).isAlpha
      · exact h1 s hc (ih s.bump (by simp only [bump]; omega))
      · exact h2 s hc

/-- `_comment` (line 194): consume to the newline or the end of input. -/
def commentF : Nat → ScanS → ScanS
  | 0, s => s
  | f+1, s =>
    if s.current < s.source.length ∧ s.peek ≠ '\n' then commentF f s.bump else s

def comment (s : ScanS) : ScanS := commentF (s.source.length - s.current) s

theorem commentF_congr : ∀ (f g : Nat) (s : ScanS), s.source.length - s.current ≤ f →
    s.source.length - s.current ≤ g → commentF f s = commentF g s := by
  intro f
  induction f with
  | zero =>
      intro g s hf hg
      cases g with
      | zero => rfl
      | succ g =>
          simp only [commentF]
          rw [if_neg (fun hc => absurd hc.1 (by omega))]
  | succ f ih =>
      intro g s hf hg
      cases g with
      | zero =>
          simp only [commentF]
          rw [if_neg (fun hc => absurd hc.1 (by omega))]
      | succ g =>
          simp only [commentF]
          split_ifs with hc
          · exact ih g s.bump (by simp only [bump]; omega) (by simp only [bump]; omega)
          · rfl

theorem comment_unfold (s : ScanS) :
    comment s =
      if s.current < s.source.length ∧ s.peek ≠ '\n' then comment s.bump else s := by
  unfold comment
  cases hf : s.source.length - s.current with
  | zero =>
      simp only [commentF]
      rw [if_neg (fun hc => absurd hc.1 (by omega))]
  | succ f =>
      simp only [commentF]
      split_ifs with hc
      · exact commentF_congr f (s.bump.source.length - s.bump.current) s.bump
          (by simp only [bump]; omega) (le_refl _)
      · rfl

theorem comment_induct (motive : ScanS → Prop)
    (h1 : ∀ s, (s.current < s.source.length ∧ s.peek ≠ '\n') → motive s.bump → motive s)
    (h2 : ∀ s, ¬(s.current < s.source.length ∧ s.peek ≠ '\n') → motive s) :
    ∀ s, motive s := by
  intro s
  generalize hm : s.source.length - s.current = n
  induction n generalizing s with
  | zero => exact h2 s (by intro hc; omega)
  | succ n ih =>
      by_cases hc : s.current < s.source.length ∧ s.peek ≠ '\n'
      · exact h1 s hc (ih s.bump (by simp only [bump]; omega))
      · exact h2 s hc

/-- `_number` (lines 146–177), entered just after the first sign or digit
character was consumed.  `hasFrac` is the code's `.`-plus-digit test and
`hasExp` its `e`/`E`-plus-(sign-and-)digit test; `is_int` is their joint
negation, exactly as the two `is_int = False` assignments compute it. -/
def number (s : ScanS) : Token × ScanS :=
  let s1 := skipDigits s
  let hasFrac := s1.peek == '.' && (s1.peek 2).isDigit
  let s2 := if hasFrac then skipDigits s1.bump else s1
  let hasExp := (s2.peek == 'e' || s2.peek == 'E') &&
    (((s2.peek 2 == '-' || s2.peek 2 == '+') && (s2.peek 3).isDigit) || (s2.peek 2).isDigit)
  let s3 :=
    if hasExp then
      let sE := s2.bump
      let sS := if sE.peek == '+' || sE.peek == '-' then sE.bump else sE
      skipDigits sS
    else s2
  let lit :=
    if hasFrac || hasExp then Lit.float (slice s3.source s3.start s3.current)
    else Lit.int (pyInt (slice s3.source s3.start s3.current))
  (s3.newToken .number lit, s3)

/-- `_keyword` (lines 179–192), entered just after the first character
(either the sign or the first letter) was consumed. -/
def keyword (s : ScanS) (sign : Option Char) : Token × ScanS :=
  let s1 := skipAlpha s
  match sign with
  | Option.none =>
      let name := slice s1.source s1.start s1.current
      (s1.newToken (keywordTok name), s1)
  | some sg =>
      let name := slice s1.source (s1.start + 1) s1.current
      (s1.newToken (signedKeywordTok sg name), s1)

theorem comment_current_le (s : ScanS) : s.current ≤ (comment s).current := by
  induction s using comment_induct with
  | h1 s h ih => rw [comment_unfold, if_pos h]; exact le_trans (by simp [bump]) ih
  | h2 s h => rw [comment_unfold, if_neg h]

theorem comment_source_eq (s : ScanS) : (comment s).source = s.source := by
  induction s using comment_induct with
  | h1 s h ih => rw [comment_unfold, if_pos h, ih]; rfl
  | h2 s h => rw [comment_unfold, if_neg h]

theorem comment_measure (s : ScanS) :
    (comment s).source.length - (comment s).current ≤ s.source.length - s.current := by
  have h1 := comment_current_le s
  rw [comment_source_eq s]
  omega

/-- `_scan_token` (lines 92–119): the raw scan step, including the
whitespace / newline / comment skipping loop. -/
def scanTokenF : Nat → ScanS → Token × ScanS
  | 0, s =>
    let s0 := { s with start := s.current }
    (s0.newToken .eof, s0)
  | f+1, s =>
    let s0 := { s with start := s.current }
    if s0.source.length ≤ s0.current then
      (s0.newToken .eof, s0)
    else
      let c := charAt s0.source s0.current
      let s1 := s0.bump
      match charTok c with
      | some t => (s1.newToken t, s1)
      | Option.none =>
        if c = '+' ∨ c = '-' then
          if (s1.peek).isDigit then s1.number
          else if (s1.peek).isAlpha then s1.keyword (some c)
          else (s1.newToken .garbage, s1)
        else if c = '/' ∧ s1.peek = '/' then
          scanTokenF f (comment s1.bump)
        else if c = ' ' ∨ c = '\r' ∨ c = '\t' then
          scanTokenF f s1
        else if c = '\n' then
          scanTokenF f { s1 with line := s1.line + 1, lineStart := s1.current }
        else if c.isDigit then s1.number
        else if c.isAlpha then s1.keyword Option.none
        else (s1.newToken .garbage, s1)

def scanToken (s : ScanS) : Token × ScanS := scanTokenF (s.source.length - s.current) s

theorem scanTokenF_congr : ∀ (f g : Nat) (x : ScanS), x.source.length - x.current ≤ f →
    x.source.length - x.current ≤ g → scanTokenF f x = scanTokenF g x := by
  intro f
  induction f with
  | zero =>
      intro g x hf hg
      cases g with
      | zero => rfl
      | succ g =>
          simp only [scanTokenF]
          rw [if_pos (by omega)]
  | succ f ih =>
      intro g x hf hg
      cases g with
      | zero =>
          simp only [scanTokenF]
          rw [if_pos (by omega)]
      | succ g =>
          simp only [scanTokenF]
          by_cases hend : x.source.length ≤ x.current
          · simp only [if_pos hend]
          · simp only [if_neg hend]
            dsimp only
            split
            · rfl
            · split_ifs
              all_goals
                first
                  | rfl
                  | (refine ih g _ ?_ ?_ <;>
                      (have hm := comment_measure (ScanS.bump (ScanS.bump { source := x.source, start := x.current, current := x.current, line := x.line, lineStart := x.lineStart, garbage := x.garbage }))
                       simp only [bump] at hm ⊢
                       omega))

theorem scanToken_unfold (x : ScanS) :
    scanToken x =
      (let s0 := { x with start := x.current }
       if s0.source.length ≤ s0.current then
         (s0.newToken .eof, s0)
       else
         let c := charAt s0.source s0.current
         let s1 := s0.bump
         match charTok c with
         | some t => (s1.newToken t, s1)
         | Option.none =>
           if c = '+' ∨ c = '-' then
             if (s1.peek).isDigit then s1.number
             else if (s1.peek).isAlpha then s1.keyword (some c)
             else (s1.newToken .garbage, s1)
           else if c = '/' ∧ s1.peek = '/' then
             scanToken (comment s1.bump)
           else if c = ' ' ∨ c = '\r' ∨ c = '\t' then
             scanToken s1
           else if c = '\n' then
             scanToken { s1 with line := s1.line + 1, lineStart := s1.current }
           else if c.isDigit then s1.number
           else if c.isAlpha then s1.keyword Option.none
           else (s1.newToken .garbage, s1)) := by
  show scanTokenF (x.source.length - x.current) x = _
  simp only [scanToken]
  cases hf : x.source.length - x.current with
  | zero =>
      simp only [scanTokenF]
      dsimp only
      rw [if_pos (by omega)]
  | succ f =>
      simp only [scanTokenF]
      dsimp only
      by_cases hend : x.source.length ≤ x.current
      · simp only [if_pos hend]
      · simp only [if_neg hend]
        split
        · rfl
        · split_ifs
          all_goals
            first
              | rfl
              | (refine scanTokenF_congr f _ _ ?_ (le_refl _)
                 have hm := comment_measure (ScanS.bump (ScanS.bump { source := x.source, start := x.current, current := x.current, line := x.line, lineStart := x.lineStart, garbage := x.garbage }))
                 simp only [bump] at hm ⊢
                 omega)

/-! ### Basic facts about the raw scan step -/

theorem bump_source (s : ScanS) : s.bump.source = s.source := rfl

theorem bump_current (s : ScanS) : s.bump.current = s.current + 1 := rfl

theorem skipDigits_source (s : ScanS) : (skipDigits s).source = s.source := by
  induction s using skipDigits_induct with
  | h1 s h ih => rw [skipDigits_unfold, if_pos h, ih, bump_source]
  | h2 s h => rw [skipDigits_unfold, if_neg h]

theorem skipDigits_mono (s : ScanS) : s.current ≤ (skipDigits s).current := by
  induction s using skipDigits_induct with
  | h1 s h ih =>
      rw [skipDigits_unfold, if_pos h]
      exact le_trans (by rw [bump_current]; omega) ih
  | h2 s h => rw [skipDigits_unfold, if_neg h]

theorem skipAlpha_source (s : ScanS) : (skipAlpha s).source = s.source := by
  induction s using skipAlpha_induct with
  | h1 s h ih => rw [skipAlpha_unfold, if_pos h, ih, bump_source]
  | h2 s h => rw [skipAlpha_unfold, if_neg h]

theorem skipAlpha_mono (s : ScanS) : s.current ≤ (skipAlpha s).current := by
  induction s using skipAlpha_induct with
  | h1 s h ih =>
      rw [skipAlpha_unfold, if_pos h]
      exact le_trans (by rw [bump_current]; omega) ih
  | h2 s h => rw [skipAlpha_unfold, if_neg h]

theorem le_skipDigits_of_le {x : Nat} {s : ScanS} (h : x ≤ s.current) :
    x ≤ (skipDigits s).current :=
  le_trans h (skipDigits_mono s)

theorem le_skipAlpha_of_le {x : Nat} {s : ScanS} (h : x ≤ s.current) :
    x ≤ (skipAlpha s).current :=
  le_trans h (skipAlpha_mono s)

theorem le_bump_of_le {x : Nat} {s : ScanS} (h : x ≤ s.current) :
    x ≤ s.bump.current :=
  le_trans h (by rw [bump_current]; omega)

theorem number_source (s : ScanS) : (s.number).2.source = s.source := by
  simp only [number]
  split_ifs <;>
    (repeat first
      | rfl
      | rw [skipDigits_source]
      | rw [bump_source])

theorem number_mono (s : ScanS) : s.current ≤ (s.number).2.current := by
  simp only [number]
  split_ifs <;>
    (repeat first
      | exact le_refl s.current
      | apply le_skipDigits_of_le
      | apply le_bump_of_le)

theorem number_type (s : ScanS) : (s.number).1.type = .number := by
  simp only [number, newToken]

theorem keywordTok_ne_eof (name : List Char) : keywordTok name ≠ .eof := by
  rw [keywordTok]; split_ifs <;> simp

theorem signedKeywordTok_ne_eof (sg : Char) (name : List Char) :
    signedKeywordTok sg name ≠ .eof := by
  rw [signedKeywordTok]; split_ifs <;> simp

theorem keyword_source (s : ScanS) (sg : Option Char) :
    (s.keyword sg).2.source = s.source := by
  cases sg <;> simp [keyword, skipAlpha_source]

theorem keyword_mono (s : ScanS) (sg : Option Char) :
    s.current ≤ (s.keyword sg).2.current := by
  cases sg <;> simp [keyword, skipAlpha_mono]

theorem keyword_type_ne_eof (s : ScanS) (sg : Option Char) :
    (s.keyword sg).1.type ≠ .eof := by
  cases sg <;> simp [keyword, newToken, keywordTok_ne_eof, signedKeywordTok_ne_eof]

theorem scanToken_source_aux : ∀ (n : Nat) (x : ScanS), x.source.length - x.current ≤ n →
    (scanToken x).2.source = x.source := by
  intro n
  induction n with
  | zero =>
      intro x hx
      rw [scanToken_unfold]; dsimp only
      split
      · rfl
      · omega
  | succ n ih =>
      intro x hx
      rw [scanToken_unfold]; dsimp only
      split
      · rfl
      · next h =>
        split
        · rfl
        · split_ifs with h1 h2 h3 h4 h5 h6 h7 h8
          · rw [number_source]; rfl
          · rw [keyword_source]; rfl
          · rfl
          · rw [ih _ ?_, comment_source_eq]
            · rfl
            · have hm := comment_measure (ScanS.bump (ScanS.bump { source := x.source, start := x.current, current := x.current, line := x.line, lineStart := x.lineStart, garbage := x.garbage }))
              dsimp only [bump] at hm ⊢
              omega
          · rw [ih _ ?_]
            · rfl
            · dsimp only [bump]; omega
          · rw [ih _ ?_]
            · rfl
            · dsimp only [bump]; omega
          · rw [number_source]; rfl
          · rw [keyword_source]; rfl
          · rfl

theorem scanToken_source (s : ScanS) : (scanToken s).2.source = s.source :=
  scanToken_source_aux _ s (le_refl _)

theorem scanToken_mono_aux : ∀ (n : Nat) (x : ScanS), x.source.length - x.current ≤ n →
    x.current ≤ (scanToken x).2.current := by
  intro n
  induction n with
  | zero =>
      intro x hx
      rw [scanToken_unfold]; dsimp only
      split
      · exact le_refl _
      · omega
  | succ n ih =>
      intro x hx
      rw [scanToken_unfold]; dsimp only
      split
      · exact le_refl _
      · next h =>
        split
        · dsimp only [bump]; omega
        · split_ifs with h1 h2 h3 h4 h5 h6 h7 h8
          · have hm := number_mono (ScanS.bump { source := x.source, start := x.current, current := x.current, line := x.line, lineStart := x.lineStart, garbage := x.garbage })
            dsimp only [bump] at hm ⊢
            omega
          · have hm := keyword_mono (ScanS.bump { source := x.source, start := x.current, current := x.current, line := x.line, lineStart := x.lineStart, garbage := x.garbage }) (some (charAt x.source x.current))
            dsimp only [bump] at hm ⊢
            omega
          · dsimp only [bump]; omega
          · have hc := comment_current_le (ScanS.bump (ScanS.bump { source := x.source, start := x.current, current := x.current, line := x.line, lineStart := x.lineStart, garbage := x.garbage }))
            have hm := comment_measure (ScanS.bump (ScanS.bump { source := x.source, start := x.current, current := x.current, line := x.line, lineStart := x.lineStart, garbage := x.garbage }))
            have hr := ih ((ScanS.bump (ScanS.bump { source := x.source, start := x.current, current := x.current, line := x.line, lineStart := x.lineStart, garbage := x.garbage })).comment) (by dsimp only [bump] at hm ⊢; omega)
            dsimp only [bump] at hc hr ⊢
            omega
          · have hr := ih (ScanS.bump { source := x.source, start := x.current, current := x.current, line := x.line, lineStart := x.lineStart, garbage := x.garbage }) (by dsimp only [bump]; omega)
            dsimp only [bump] at hr ⊢
            omega
          · have hr := ih { source := x.source, start := x.current, current := x.current + 1, line := x.line + 1, lineStart := x.current + 1, garbage := x.garbage } (by dsimp only; omega)
            dsimp only [bump] at hr ⊢
            omega
          · have hm := number_mono (ScanS.bump { source := x.source, start := x.current, current := x.current, line := x.line, lineStart := x.lineStart, garbage := x.garbage })
            dsimp only [bump] at hm ⊢
            omega
          · have hm := keyword_mono (ScanS.bump { source := x.source, start := x.current, current := x.current, line := x.line, lineStart := x.lineStart, garbage := x.garbage }) Option.none
            dsimp only [bump] at hm ⊢
            omega
          · dsimp only [bump]; omega

theorem scanToken_mono (s : ScanS) : s.current ≤ (scanToken s).2.current :=
  scanToken_mono_aux _ s (le_refl _)

theorem charTok_ne_eof (c : Char) (t : TokType) (h : charTok c = some t) : t ≠ .eof := by
  unfold charTok at h
  split at h <;> (cases h <;> decide)

/-- One raw scan step either reports end of input or makes strict cursor
progress. -/
theorem scanToken_step (x : ScanS) :
    (scanToken x).1.type = .eof ∨ x.current < (scanToken x).2.current := by
  rw [scanToken_unfold]; dsimp only
  split
  · left; rfl
  · next h =>
    split
    · right; dsimp only [bump]; omega
    · split_ifs with h1 h2 h3 h4 h5 h6 h7 h8
      · right
        have hm := number_mono (ScanS.bump { source := x.source, start := x.current, current := x.current, line := x.line, lineStart := x.lineStart, garbage := x.garbage })
        dsimp only [bump] at hm ⊢
        omega
      · right
        have hm := keyword_mono (ScanS.bump { source := x.source, start := x.current, current := x.current, line := x.line, lineStart := x.lineStart, garbage := x.garbage }) (some (charAt x.source x.current))
        dsimp only [bump] at hm ⊢
        omega
      · right; dsimp only [bump]; omega
      · right
        have hc := comment_current_le (ScanS.bump (ScanS.bump { source := x.source, start := x.current, current := x.current, line := x.line, lineStart := x.lineStart, garbage := x.garbage }))
        have hm := scanToken_mono ((ScanS.bump (ScanS.bump { source := x.source, start := x.current, current := x.current, line := x.line, lineStart := x.lineStart, garbage := x.garbage })).comment)
        dsimp only [bump] at hc hm ⊢
        omega
      · right
        have hm := scanToken_mono (ScanS.bump { source := x.source, start := x.current, current := x.current, line := x.line, lineStart := x.lineStart, garbage := x.garbage })
        dsimp only [bump] at hm ⊢
        omega
      · right
        have hm := scanToken_mono { source := x.source, start := x.current, current := x.current + 1, line := x.line + 1, lineStart := x.current + 1, garbage := x.garbage }
        dsimp only [bump] at hm ⊢
        omega
      · right
        have hm := number_mono (ScanS.bump { source := x.source, start := x.current, current := x.current, line := x.line, lineStart := x.lineStart, garbage := x.garbage })
        dsimp only [bump] at hm ⊢
        omega
      · right
        have hm := keyword_mono (ScanS.bump { source := x.source, start := x.current, current := x.current, line := x.line, lineStart := x.lineStart, garbage := x.garbage }) Option.none
        dsimp only [bump] at hm ⊢
        omega
      · right; dsimp only [bump]; omega

theorem scanToken_eof_end_aux : ∀ (n : Nat) (x : ScanS), x.source.length - x.current ≤ n →
    (scanToken x).1.type ≠ .eof ∨ x.source.length ≤ (scanToken x).2.current := by
  intro n
  induction n with
  | zero =>
      intro x hx
      rw [scanToken_unfold]; dsimp only
      split
      · next h => right; exact h
      · omega
  | succ n ih =>
      intro x hx
      rw [scanToken_unfold]; dsimp only
      split
      · next h => right; exact h
      · next h =>
        split
        · next t hct => left; exact charTok_ne_eof _ _ hct
        · split_ifs with h1 h2 h3 h4 h5 h6 h7 h8
          · left; rw [number_type]; simp
          · left; exact keyword_type_ne_eof _ _
          · left; simp [newToken]
          · have hm := comment_measure (ScanS.bump (ScanS.bump { source := x.source, start := x.current, current := x.current, line := x.line, lineStart := x.lineStart, garbage := x.garbage }))
            rcases ih ((ScanS.bump (ScanS.bump { source := x.source, start := x.current, current := x.current, line := x.line, lineStart := x.lineStart, garbage := x.garbage })).comment) (by dsimp only [bump] at hm ⊢; omega) with hne | hle
            · left; exact hne
            · right
              rw [comment_source_eq] at hle
              dsimp only [bump] at hle ⊢
              omega
          · rcases ih (ScanS.bump { source := x.source, start := x.current, current := x.current, line := x.line, lineStart := x.lineStart, garbage := x.garbage }) (by dsimp only [bump]; omega) with hne | hle
            · left; exact hne
            · right
              dsimp only [bump] at hle ⊢
              omega
          · rcases ih { source := x.source, start := x.current, current := x.current + 1, line := x.line + 1, lineStart := x.current + 1, garbage := x.garbage } (by dsimp only; omega) with hne | hle
            · left; exact hne
            · right
              dsimp only [bump] at hle ⊢
              omega
          · left; rw [number_type]; simp
          · left; exact keyword_type_ne_eof _ _
          · left; simp [newToken]

theorem scanToken_eof_end (s : ScanS) (h : (scanToken s).1.type = .eof) :
    s.source.length ≤ (scanToken s).2.current := by
  rcases scanToken_eof_end_aux (s.source.length - s.current) s (le_refl _) with hne | hle
  · exact absurd h hne
  · exact hle

theorem skipDigits_garbage (s : ScanS) : (skipDigits s).garbage = s.garbage := by
  induction s using skipDigits_induct with
  | h1 s h ih => rw [skipDigits_unfold, if_pos h]; rw [ih]; rfl
  | h2 s h => rw [skipDigits_unfold, if_neg h]

theorem skipAlpha_garbage (s : ScanS) : (skipAlpha s).garbage = s.garbage := by
  induction s using skipAlpha_induct with
  | h1 s h ih => rw [skipAlpha_unfold, if_pos h]; rw [ih]; rfl
  | h2 s h => rw [skipAlpha_unfold, if_neg h]

theorem comment_garbage (s : ScanS) : (comment s).garbage = s.garbage := by
  induction s using comment_induct with
  | h1 s h ih => rw [comment_unfold, if_pos h]; rw [ih]; rfl
  | h2 s h => rw [comment_unfold, if_neg h]

theorem number_garbage (s : ScanS) : (s.number).2.garbage = s.garbage := by
  simp only [number]
  split_ifs <;>
    (repeat first
      | rfl
      | rw [skipDigits_garbage]
      | rw [show ∀ u : ScanS, u.bump.garbage = u.garbage from fun u => rfl])

theorem keyword_garbage (s : ScanS) (sg : Option Char) :
    (s.keyword sg).2.garbage = s.garbage := by
  cases sg <;> simp [keyword, skipAlpha_garbage]

theorem scanToken_garbage_aux : ∀ (n : Nat) (x : ScanS), x.source.length - x.current ≤ n →
    (scanToken x).2.garbage = x.garbage := by
  intro n
  induction n with
  | zero =>
      intro x hx
      rw [scanToken_unfold]; dsimp only
      split
      · rfl
      · omega
  | succ n ih =>
      intro x hx
      rw [scanToken_unfold]; dsimp only
      split
      · rfl
      · next h =>
        split
        · rfl
        · split_ifs with h1 h2 h3 h4 h5 h6 h7 h8
          · rw [number_garbage]; rfl
          · rw [keyword_garbage]; rfl
          · rfl
          · rw [ih _ ?_, comment_garbage]
            · rfl
            · have hm := comment_measure (ScanS.bump (ScanS.bump { source := x.source, start := x.current, current := x.current, line := x.line, lineStart := x.lineStart, garbage := x.garbage }))
              dsimp only [bump] at hm ⊢
              omega
          · rw [ih _ ?_]
            · rfl
            · dsimp only [bump]; omega
          · rw [ih _ ?_]
            · rfl
            · dsimp only [bump]; omega
          · rw [number_garbage]; rfl
          · rw [keyword_garbage]; rfl
          · rfl

theorem scanToken_garbage (s : ScanS) : (scanToken s).2.garbage = s.garbage :=
  scanToken_garbage_aux _ s (le_refl _)

theorem scanToken_atEnd (s : ScanS) (h : s.source.length ≤ s.current) :
    (scanToken s).1.type = .eof := by
  rw [scanToken_unfold]; dsimp only
  rw [if_pos h]
  rfl

/-- `next` (`scanner.py` lines 76–87): the public scan step; while the
garbage flag is set, further garbage results are absorbed, so a returned
garbage token is always the first of its run. -/
def nextTokF : Nat → ScanS → Token × ScanS
  | 0, s =>
    let r := scanToken s
    (r.1, { r.2 with garbage := Bool.false })
  | f+1, s =>
    match scanToken s with
    | (t, s1) =>
      if t.type = .garbage then
        if s1.garbage then nextTokF f s1
        else (t, { s1 with garbage := Bool.true })
      else (t, { s1 with garbage := Bool.false })

def nextTok (s : ScanS) : Token × ScanS := nextTokF (s.source.length - s.current) s

theorem nextTokF_congr : ∀ (f g : Nat) (s : ScanS), s.source.length - s.current ≤ f →
    s.source.length - s.current ≤ g → nextTokF f s = nextTokF g s := by
  intro f
  induction f with
  | zero =>
      intro g s hf hg
      cases g with
      | zero => rfl
      | succ g =>
          rcases hsc : scanToken s with ⟨t, s1⟩
          have ht := scanToken_atEnd s (by omega)
          rw [hsc] at ht
          simp only [nextTokF, hsc]
          rw [if_neg (by rw [ht]; simp)]
  | succ f ih =>
      intro g s hf hg
      cases g with
      | zero =>
          rcases hsc : scanToken s with ⟨t, s1⟩
          have ht := scanToken_atEnd s (by omega)
          rw [hsc] at ht
          simp only [nextTokF, hsc]
          rw [if_neg (by rw [ht]; simp)]
      | succ g =>
          rcases hsc : scanToken s with ⟨t, s1⟩
          simp only [nextTokF, hsc]
          by_cases hg1 : t.type = .garbage
          · simp only [if_pos hg1]
            by_cases hgb : s1.garbage = true
            · simp only [hgb, if_true]
              have hpr := scanToken_step s
              rw [hsc] at hpr
              have hsrc := scanToken_source s
              rw [hsc] at hsrc
              dsimp only at hpr hsrc
              rcases hpr with he | hlt
              · rw [hg1] at he; cases he
              · refine ih g s1 ?_ ?_ <;> (rw [hsrc]; omega)
            · simp [hgb]
          · simp only [if_neg hg1]

theorem nextTok_unfold (s : ScanS) :
    nextTok s =
      (match scanToken s with
       | (t, s1) =>
         if t.type = .garbage then
           if s1.garbage then nextTok s1
           else (t, { s1 with garbage := Bool.true })
         else (t, { s1 with garbage := Bool.false })) := by
  show nextTokF (s.source.length - s.current) s = _
  cases hf : s.source.length - s.current with
  | zero =>
      rcases hsc : scanToken s with ⟨t, s1⟩
      have ht := scanToken_atEnd s (by omega)
      rw [hsc] at ht
      simp only [nextTokF, hsc]
      rw [if_neg (by rw [ht]; simp)]
  | succ f =>
      rcases hsc : scanToken s with ⟨t, s1⟩
      simp only [nextTokF, hsc]
      by_cases hg1 : t.type = .garbage
      · simp only [if_pos hg1]
        by_cases hgb : s1.garbage = true
        · simp only [hgb, if_true]
          show nextTokF f s1 = nextTokF _ s1
          have hpr := scanToken_step s
          rw [hsc] at hpr
          have hsrc := scanToken_source s
          rw [hsc] at hsrc
          dsimp only at hpr hsrc
          rcases hpr with he | hlt
          · rw [hg1] at he; cases he
          · refine nextTokF_congr f _ s1 ?_ (le_refl _)
            rw [hsrc]; omega
        · simp [hgb]
      · simp only [if_neg hg1]

theorem nextTok_induct (motive : ScanS → Prop)
    (h1 : ∀ x t s1, scanToken x = (t, s1) → t.type = .garbage → s1.garbage = true →
      motive s1 → motive x)
    (h2 : ∀ x t s1, scanToken x = (t, s1) → t.type = .garbage → ¬ s1.garbage = true → motive x)
    (h3 : ∀ x t s1, scanToken x = (t, s1) → ¬ t.type = .garbage → motive x) :
    ∀ s, motive s := by
  have main : ∀ (n : Nat) (s : ScanS), s.source.length - s.current ≤ n → motive s := by
    intro n
    induction n with
    | zero =>
        intro s hn
        rcases hsc : scanToken s with ⟨t, s1⟩
        have ht := scanToken_atEnd s (by omega)
        rw [hsc] at ht
        exact h3 s t s1 hsc (by rw [ht]; simp)
    | succ n ih =>
        intro s hn
        rcases hsc : scanToken s with ⟨t, s1⟩
        by_cases hg1 : t.type = .garbage
        · by_cases hgb : s1.garbage = true
          · refine h1 s t s1 hsc hg1 hgb (ih s1 ?_)
            have hpr := scanToken_step s
            rw [hsc] at hpr
            have hsrc := scanToken_source s
            rw [hsc] at hsrc
            dsimp only at hpr hsrc
            rcases hpr with he | hlt
            · rw [hg1] at he; cases he
            · rw [hsrc]; omega
          · exact h2 s t s1 hsc hg1 hgb
        · exact h3 s t s1 hsc hg1
  exact fun s => main (s.source.length - s.current) s (le_refl _)

theorem nextTok_eq_absorb (x : ScanS) (t : Token) (s1 : ScanS) (h : scanToken x = (t, s1))
    (hg : t.type = .garbage) (hf : s1.garbage = true) : nextTok x = nextTok s1 := by
  rw [nextTok_unfold]
  simp only [h, hg, hf]
  rfl

theorem nextTok_eq_first (x : ScanS) (t : Token) (s1 : ScanS) (h : scanToken x = (t, s1))
    (hg : t.type = .garbage) (hf : s1.garbage = false) :
    nextTok x = (t, { s1 with garbage := Bool.true }) := by
  rw [nextTok_unfold]
  simp only [h, hg, hf]
  rfl

theorem nextTok_eq_pass (x : ScanS) (t : Token) (s1 : ScanS) (h : scanToken x = (t, s1))
    (hg : t.type ≠ .garbage) :
    nextTok x = (t, { s1 with garbage := Bool.false }) := by
  rw [nextTok_unfold]
  simp only [h, hg]
  rfl

theorem nextTok_source (s : ScanS) : (nextTok s).2.source = s.source := by
  induction s using nextTok_induct with
  | h1 x t s1 h hg hf ih =>
      rw [nextTok_eq_absorb x t s1 h hg hf, ih]
      have hs := scanToken_source x
      rw [h] at hs
      exact hs
  | h2 x t s1 h hg hf =>
      rw [nextTok_eq_first x t s1 h hg (by simpa using hf)]
      have hs := scanToken_source x
      rw [h] at hs
      exact hs
  | h3 x t s1 h hg =>
      rw [nextTok_eq_pass x t s1 h hg]
      have hs := scanToken_source x
      rw [h] at hs
      exact hs

theorem nextTok_mono (s : ScanS) : s.current ≤ (nextTok s).2.current := by
  induction s using nextTok_induct with
  | h1 x t s1 h hg hf ih =>
      rw [nextTok_eq_absorb x t s1 h hg hf]
      have hm := scanToken_mono x
      rw [h] at hm
      exact le_trans hm ih
  | h2 x t s1 h hg hf =>
      rw [nextTok_eq_first x t s1 h hg (by simpa using hf)]
      have hm := scanToken_mono x
      rw [h] at hm
      exact hm
  | h3 x t s1 h hg =>
      rw [nextTok_eq_pass x t s1 h hg]
      have hm := scanToken_mono x
      rw [h] at hm
      exact hm

/-- One `next` call either reports end of input or makes strict cursor
progress. -/
theorem nextTok_step (s : ScanS) :
    (nextTok s).1.type = .eof ∨ s.current < (nextTok s).2.current := by
  induction s using nextTok_induct with
  | h1 x t s1 h hg hf ih =>
      rw [nextTok_eq_absorb x t s1 h hg hf]
      right
      have hp := scanToken_step x
      rw [h] at hp
      rcases hp with he | hlt
      · rw [hg] at he; cases he
      · exact lt_of_lt_of_le hlt (nextTok_mono s1)
  | h2 x t s1 h hg hf =>
      rw [nextTok_eq_first x t s1 h hg (by simpa using hf)]
      right
      have hp := scanToken_step x
      rw [h] at hp
      rcases hp with he | hlt
      · rw [hg] at he; cases he
      · exact hlt
  | h3 x t s1 h hg =>
      rw [nextTok_eq_pass x t s1 h hg]
      have hp := scanToken_step x
      rw [h] at hp
      rcases hp with he | hlt
      · left; exact he
      · right; exact hlt

theorem nextTok_eof_end (s : ScanS) :
    (nextTok s).1.type = .eof → s.source.length ≤ (nextTok s).2.current := by
  induction s using nextTok_induct with
  | h1 x t s1 h hg hf ih =>
      rw [nextTok_eq_absorb x t s1 h hg hf]
      intro he
      have hs := scanToken_source x
      rw [h] at hs
      rw [← hs]
      exact ih he
  | h2 x t s1 h hg hf =>
      rw [nextTok_eq_first x t s1 h hg (by simpa using hf)]
      intro he
      rw [hg] at he; cases he
  | h3 x t s1 h hg =>
      rw [nextTok_eq_pass x t s1 h hg]
      intro he
      have hee := scanToken_eof_end x (by rw [h]; exact he)
      rw [h] at hee
      exact hee

theorem nextTok_atEnd (s : ScanS) (h : s.source.length ≤ s.current) :
    (nextTok s).1.type = .eof := by
  have ht := scanToken_atEnd s h
  rcases hsc : scanToken s with ⟨t, s1⟩
  rw [hsc] at ht
  rw [nextTok_eq_pass s t s1 hsc (by rw [ht]; simp)]
  exact ht

/-- While the garbage flag is set, `next` never returns a garbage token:
the pending run is completely absorbed. -/
theorem nextTok_flagged_no_garbage (s : ScanS) (hflag : s.garbage = true) :
    (nextTok s).1.type ≠ .garbage := by
  induction s using nextTok_induct with
  | h1 x t s1 h hg hf ih =>
      rw [nextTok_eq_absorb x t s1 h hg hf]
      exact ih hf
  | h2 x t s1 h hg hf =>
      have hgb := scanToken_garbage x
      rw [h] at hgb
      rw [hgb] at hf
      exact absurd hflag hf
  | h3 x t s1 h hg =>
      rw [nextTok_eq_pass x t s1 h hg]
      exact hg

/-- A garbage token returned by `next` leaves the garbage flag set. -/
theorem nextTok_garbage_flag (s : ScanS) :
    (nextTok s).1.type = .garbage → (nextTok s).2.garbage = true := by
  induction s using nextTok_induct with
  | h1 x t s1 h hg hf ih =>
      rw [nextTok_eq_absorb x t s1 h hg hf]
      exact ih
  | h2 x t s1 h hg hf =>
      rw [nextTok_eq_first x t s1 h hg (by simpa using hf)]
      intro _
      rfl
  | h3 x t s1 h hg =>
      rw [nextTok_eq_pass x t s1 h hg]
      intro hh
      exact absurd hh hg

/-- A non-garbage token returned by `next` clears the garbage flag. -/
theorem nextTok_pass_flag (s : ScanS) :
    (nextTok s).1.type ≠ .garbage → (nextTok s).2.garbage = false := by
  induction s using nextTok_induct with
  | h1 x t s1 h hg hf ih =>
      rw [nextTok_eq_absorb x t s1 h hg hf]
      exact ih
  | h2 x t s1 h hg hf =>
      rw [nextTok_eq_first x t s1 h hg (by simpa using hf)]
      intro hh
      exact absurd hg hh
  | h3 x t s1 h hg =>
      rw [nextTok_eq_pass x t s1 h hg]
      intro _
      rfl

end ScanS

/-! ## Errors

Python exceptions, as an explicit error type.  `stringScanError` carries
the `restart_position` payload (`scanner.py` lines 258–261);
`typeErrorBadCall` models the `TypeError` raised by the one-argument call
`self.error("Cannot continue after string")` (`parser.py` line 160) against
the two-parameter signature `error(self, token, message)`;
`typeErrorHandler` / `indexErrorHandler` / `assertFail` model the failures
of `BuildObjectHandler.element` on impossible stacks (`parser.py` lines
56–69); `outOfFuel` is a modelling artifact of the fuel-indexed parser,
not a Python behaviour. -/

inductive Err where
  | indexError
  | stringScanError (restart : Nat)
  | valueError
  | typeErrorBadCall
  | typeErrorHandler
  | indexErrorHandler
  | assertFail
  | attributeError
  | parseError
  | outOfFuel
deriving DecidableEq, Repr

/-! ## StringScanner (`scanner.py` lines 199–255) -/

structure StrS where
  source : List Char
  chars : List Char
  current : Nat
  start : Nat
  line : Nat
deriving DecidableEq, Repr

namespace StrS

/-- `StringScanner._advance` (line 250): past the end it raises
`IndexError` (the cursor increment of the failing call is unobservable). -/
def advance (s : StrS) : Except Err (Char × StrS) :=
  if s.current < s.source.length then
    .ok (charAt s.source s.current, { s with current := s.current + 1 })
  else .error .indexError

/-- `self.chars.append(c)`. -/
def pushc (s : StrS) (c : Char) : StrS := { s with chars := s.chars ++ [c] }

/-- `_scan_char` (lines 221–248): `.ok (true, _)` means the closing quote
was found. -/
def scanChar (s : StrS) : Except Err (Bool × StrS) :=
  match s.advance with
  | .error e => .error e
  | .ok (c, s) =>
    if c = '\\' then
      match s.advance with
      | .error e => .error e
      | .ok (c2, s) =>
        if c2 = '"' ∨ c2 = '\\' ∨ c2 = '/' then .ok (Bool.false, s.pushc c2)
        else if c2 = 'b' then .ok (Bool.false, s.pushc '\x08')
        else if c2 = 'f' then .ok (Bool.false, s.pushc '\x0c')
        else if c2 = 'n' then .ok (Bool.false, s.pushc '\n')
        else if c2 = 'r' then .ok (Bool.false, s.pushc '\x0d')
        else if c2 = 't' then .ok (Bool.false, s.pushc '\t')
        else if c2 = 'u' then
          match s.advance with
          | .error e => .error e
          | .ok (h1, s) =>
            match s.advance with
            | .error e => .error e
            | .ok (h2, s) =>
              match s.advance with
              | .error e => .error e
              | .ok (h3, s) =>
                match s.advance with
                | .error e => .error e
                | .ok (h4, s) =>
                  match pyIntHex [h1, h2, h3, h4] with
                  | Option.none => .error .valueError
                  | some n =>
                    match pyChr n with
                    | Option.none => .error .valueError
                    | some ch => .ok (Bool.false, s.pushc ch)
        else .ok (Bool.false, s.pushc c2)
    else if c = '\n' then .error (.stringScanError s.start)
    else if c = '"' then .ok (Bool.true, s)
    else .ok (Bool.false, s.pushc c)

/-- Cursor/bookkeeping relationship between a string-scanner state and a
later one: strict progress, same source, in-bounds cursor, untouched
`start` and `line`. -/
def Ext (a b : StrS) : Prop :=
  a.current < b.current ∧ b.source = a.source ∧ b.current ≤ a.source.length ∧
    b.start = a.start ∧ b.line = a.line

theorem Ext.trans {a b c : StrS} (h1 : Ext a b) (h2 : Ext b c) : Ext a c := by
  obtain ⟨p1, q1, r1, u1, v1⟩ := h1
  obtain ⟨p2, q2, r2, u2, v2⟩ := h2
  exact ⟨lt_trans p1 p2, q2.trans q1, by rw [q1] at r2; exact r2, u2.trans u1, v2.trans v1⟩

theorem Ext_pushc {a b : StrS} (c : Char) (h : Ext a b) : Ext a (b.pushc c) := by
  obtain ⟨p, q, r, u, v⟩ := h
  exact ⟨p, q, r, u, v⟩

theorem advance_Ext (s : StrS) (c : Char) (s2 : StrS) (h : s.advance = .ok (c, s2)) :
    Ext s s2 := by
  unfold advance at h
  split_ifs at h with hlt
  cases h
  exact ⟨Nat.lt_succ_self _, rfl, hlt, rfl, rfl⟩

theorem scanChar_Ext (s : StrS) (b : Bool) (s2 : StrS) (h : scanChar s = .ok (b, s2)) :
    Ext s s2 := by
  unfold scanChar at h
  cases ha1 : s.advance with
  | error e => rw [ha1] at h; cases h
  | ok p =>
    obtain ⟨c1, t1⟩ := p
    rw [ha1] at h
    have e1 := advance_Ext s c1 t1 ha1
    dsimp only at h
    by_cases hc1 : c1 = '\\'
    · rw [if_pos hc1] at h
      cases ha2 : t1.advance with
      | error e => rw [ha2] at h; cases h
      | ok p2 =>
        obtain ⟨c2, t2⟩ := p2
        rw [ha2] at h
        have e2 := e1.trans (advance_Ext t1 c2 t2 ha2)
        dsimp only at h
        split_ifs at h with g1 g2 g3 g4 g5 g6 g7
        · cases h; exact Ext_pushc _ e2
        · cases h; exact Ext_pushc _ e2
        · cases h; exact Ext_pushc _ e2
        · cases h; exact Ext_pushc _ e2
        · cases h; exact Ext_pushc _ e2
        · cases h; exact Ext_pushc _ e2
        · cases ha3 : t2.advance with
          | error e => rw [ha3] at h; cases h
          | ok p3 =>
            obtain ⟨d1, t3⟩ := p3
            rw [ha3] at h
            have e3 := e2.trans (advance_Ext t2 d1 t3 ha3)
            dsimp only at h
            cases ha4 : t3.advance with
            | error e => rw [ha4] at h; cases h
            | ok p4 =>
              obtain ⟨d2, t4⟩ := p4
              rw [ha4] at h
              have e4 := e3.trans (advance_Ext t3 d2 t4 ha4)
              dsimp only at h
              cases ha5 : t4.advance with
              | error e => rw [ha5] at h; cases h
              | ok p5 =>
                obtain ⟨d3, t5⟩ := p5
                rw [ha5] at h
                have e5 := e4.trans (advance_Ext t4 d3 t5 ha5)
                dsimp only at h
                cases ha6 : t5.advance with
                | error e => rw [ha6] at h; cases h
                | ok p6 =>
                  obtain ⟨d4, t6⟩ := p6
                  rw [ha6] at h
                  have e6 := e5.trans (advance_Ext t5 d4 t6 ha6)
                  dsimp only at h
                  cases hhex : pyIntHex [d1, d2, d3, d4] with
                  | none => rw [hhex] at h; cases h
                  | some n =>
                    rw [hhex] at h
                    dsimp only at h
                    cases hchr : pyChr n with
                    | none => rw [hchr] at h; cases h
                    | some ch =>
                      rw [hchr] at h
                      dsimp only at h
                      cases h
                      exact Ext_pushc _ e6
        · cases h; exact Ext_pushc _ e2
    · rw [if_neg hc1] at h
      by_cases hnl : c1 = '\n'
      · rw [if_pos hnl] at h; cases h
      · rw [if_neg hnl] at h
        by_cases hq : c1 = '"'
        · rw [if_pos hq] at h
          cases h
          exact e1
        · rw [if_neg hq] at h
          cases h
          exact Ext_pushc _ e1

theorem scanChar_err (s : StrS) (e : Err) (h : scanChar s = .error e) :
    e = .indexError ∨ e = .stringScanError s.start ∨ e = .valueError := by
  unfold scanChar at h
  cases ha1 : s.advance with
  | error e1 =>
      rw [ha1] at h
      cases h
      unfold advance at ha1
      split_ifs at ha1
      cases ha1
      left; rfl
  | ok p =>
    obtain ⟨c1, t1⟩ := p
    rw [ha1] at h
    have e1 := advance_Ext s c1 t1 ha1
    dsimp only at h
    by_cases hc1 : c1 = '\\'
    · rw [if_pos hc1] at h
      cases ha2 : t1.advance with
      | error e2 =>
          rw [ha2] at h
          cases h
          unfold advance at ha2
          split_ifs at ha2
          cases ha2
          left; rfl
      | ok p2 =>
        obtain ⟨c2, t2⟩ := p2
        rw [ha2] at h
        have e2 := e1.trans (advance_Ext t1 c2 t2 ha2)
        dsimp only at h
        split_ifs at h with g1 g2 g3 g4 g5 g6 g7
        cases ha3 : t2.advance with
        | error e3 =>
            rw [ha3] at h; cases h
            unfold advance at ha3; split_ifs at ha3; cases ha3
            left; rfl
        | ok p3 =>
          obtain ⟨d1, t3⟩ := p3
          rw [ha3] at h
          dsimp only at h
          cases ha4 : t3.advance with
          | error e4 =>
              rw [ha4] at h; cases h
              unfold advance at ha4; split_ifs at ha4; cases ha4
              left; rfl
          | ok p4 =>
            obtain ⟨d2, t4⟩ := p4
            rw [ha4] at h
            dsimp only at h
            cases ha5 : t4.advance with
            | error e5 =>
                rw [ha5] at h; cases h
                unfold advance at ha5; split_ifs at ha5; cases ha5
                left; rfl
            | ok p5 =>
              obtain ⟨d3, t5⟩ := p5
              rw [ha5] at h
              dsimp only at h
              cases ha6 : t5.advance with
              | error e6 =>
                  rw [ha6] at h; cases h
                  unfold advance at ha6; split_ifs at ha6; cases ha6
                  left; rfl
              | ok p6 =>
                obtain ⟨d4, t6⟩ := p6
                rw [ha6] at h
                dsimp only at h
                cases hhex : pyIntHex [d1, d2, d3, d4] with
                | none =>
                    rw [hhex] at h
                    cases h
                    right; right; rfl
                | some n =>
                  rw [hhex] at h
                  dsimp only at h
                  cases hchr : pyChr n with
                  | none =>
                      rw [hchr] at h
                      cases h
                      right; right; rfl
                  | some ch => rw [hchr] at h; cases h
    · rw [if_neg hc1] at h
      by_cases hnl : c1 = '\n'
      · rw [if_pos hnl] at h
        cases h
        right; left
        rw [e1.2.2.2.1]
      · rw [if_neg hnl] at h
        by_cases hq : c1 = '"'
        · rw [if_pos hq] at h; cases h
        · rw [if_neg hq] at h; cases h

theorem scanChar_atEnd (s : StrS) (h : s.source.length ≤ s.current) :
    scanChar s = .error .indexError := by
  unfold scanChar advance
  rw [if_neg (by omega)]

/-- The `while not self._scan_char(): pass` loop of `scan_string`
(lines 209–210). -/
def scanLoopF : Nat → StrS → Except Err StrS
  | 0, _ => .error .indexError
  | f+1, s =>
    match scanChar s with
    | .error e => .error e
    | .ok (Bool.true, s2) => .ok s2
    | .ok (Bool.false, s2) => scanLoopF f s2

def scanLoop (s : StrS) : Except Err StrS := scanLoopF (s.source.length - s.current) s

theorem scanLoopF_congr : ∀ (f g : Nat) (s : StrS), s.source.length - s.current ≤ f →
    s.source.length - s.current ≤ g → scanLoopF f s = scanLoopF g s := by
  intro f
  induction f with
  | zero =>
      intro g s hf hg
      cases g with
      | zero => rfl
      | succ g =>
          simp only [scanLoopF, scanChar_atEnd s (by omega)]
  | succ f ih =>
      intro g s hf hg
      cases g with
      | zero =>
          simp only [scanLoopF, scanChar_atEnd s (by omega)]
      | succ g =>
          simp only [scanLoopF]
          rcases hsc : scanChar s with e | ⟨b, s2⟩
          · rfl
          · cases b
            · obtain ⟨p, q, r, u, v⟩ := scanChar_Ext s Bool.false s2 hsc
              refine ih g s2 ?_ ?_ <;> (rw [q]; omega)
            · rfl

theorem scanLoop_unfold (s : StrS) :
    scanLoop s =
      (match scanChar s with
       | .error e => .error e
       | .ok (Bool.true, s2) => .ok s2
       | .ok (Bool.false, s2) => scanLoop s2) := by
  show scanLoopF (s.source.length - s.current) s = _
  cases hf : s.source.length - s.current with
  | zero =>
      simp only [scanLoopF, scanChar_atEnd s (by omega)]
  | succ f =>
      simp only [scanLoopF]
      rcases hsc : scanChar s with e | ⟨b, s2⟩
      · rfl
      · cases b
        · obtain ⟨p, q, r, u, v⟩ := scanChar_Ext s Bool.false s2 hsc
          show scanLoopF f s2 = scanLoopF _ s2
          refine scanLoopF_congr f _ s2 ?_ (le_refl _)
          rw [q]; omega
        · rfl

theorem scanLoop_induct (motive : StrS → Prop)
    (h1 : ∀ x e, scanChar x = .error e → motive x)
    (h2 : ∀ x s2, scanChar x = .ok (Bool.true, s2) → motive x)
    (h3 : ∀ x s2, scanChar x = .ok (Bool.false, s2) → motive s2 → motive x) :
    ∀ s, motive s := by
  have main : ∀ (n : Nat) (s : StrS), s.source.length - s.current ≤ n → motive s := by
    intro n
    induction n with
    | zero =>
        intro s hn
        exact h1 s .indexError (scanChar_atEnd s (by omega))
    | succ n ih =>
        intro s hn
        rcases hsc : scanChar s with e | ⟨b, s2⟩
        · exact h1 s e hsc
        · cases b
          · obtain ⟨p, q, r, u, v⟩ := scanChar_Ext s Bool.false s2 hsc
            exact h3 s s2 hsc (ih s2 (by rw [q]; omega))
          · exact h2 s s2 hsc
  exact fun s => main (s.source.length - s.current) s (le_refl _)

theorem scanLoop_err (s : StrS) (e : Err) (h : scanLoop s = .error e) :
    e = .indexError ∨ e = .stringScanError s.start ∨ e = .valueError := by
  induction s using scanLoop_induct with
  | h1 x e2 hsc =>
      rw [scanLoop_unfold, hsc] at h
      dsimp only at h
      cases h
      exact scanChar_err x e hsc
  | h2 x s2 hsc =>
      rw [scanLoop_unfold, hsc] at h
      dsimp only at h
      cases h
  | h3 x s2 hsc ih =>
      rw [scanLoop_unfold, hsc] at h
      dsimp only at h
      have hst := (scanChar_Ext x Bool.false s2 hsc).2.2.2.1
      rcases ih h with h1 | h2 | h3
      · left; exact h1
      · right; left; rw [h2, hst]
      · right; right; exact h3

theorem scanLoop_Ext (s : StrS) (s2 : StrS) (h : scanLoop s = .ok s2) : Ext s s2 := by
  induction s using scanLoop_induct with
  | h1 x e2 hsc =>
      rw [scanLoop_unfold, hsc] at h
      dsimp only at h
      cases h
  | h2 x t hsc =>
      rw [scanLoop_unfold, hsc] at h
      dsimp only at h
      cases h
      exact scanChar_Ext x Bool.true s2 hsc
  | h3 x t hsc ih =>
      rw [scanLoop_unfold, hsc] at h
      dsimp only at h
      exact (scanChar_Ext x Bool.false t hsc).trans (ih h)

/-- `scan_string` (lines 207–216): returns the `STRING` token and the
final cursor position (Python leaves it in `self.current`; the Parser
copies it into the main scanner).  A swallowed `IndexError` becomes a
`StringScanError` carrying `self.start`. -/
def scanString (s0 : StrS) : Except Err (Token × Nat) :=
  match scanLoop s0 with
  | .error .indexError => .error (.stringScanError s0.start)
  | .error e => .error e
  | .ok s2 =>
      .ok ({ type := .string, lexeme := slice s2.source (s2.start - 1) s2.current,
             literal := .str s2.chars, start := s2.start, line := s2.line,
             column := (s2.start : Int) }, s2.current)

/-- Every string-scan failure surfaces either as a `StringScanError`
whose restart payload is exactly the constructor-time `start` offset, or
as a `ValueError` from a malformed `\u` escape. -/
theorem scanString_err (s0 : StrS) (e : Err) (h : scanString s0 = .error e) :
    e = .stringScanError s0.start ∨ e = .valueError := by
  unfold scanString at h
  cases hl : scanLoop s0 with
  | error e2 =>
      rw [hl] at h
      rcases scanLoop_err s0 e2 hl with h1 | h2 | h3
      · rw [h1] at h; cases h; left; rfl
      · rw [h2] at h; cases h; left; rfl
      · rw [h3] at h; cases h; right; rfl
  | ok s2 => rw [hl] at h; cases h

end StrS

/-! ## Built values and the DocumentBuilder (`parser.py` lines 27–69) -/

/-- Python values built by `BuildObjectHandler`: `None`, booleans, `int`,
`float` results (a decoded literal kept as text, or the `nan` / `inf` /
`-inf` sentinels from `parser.py` lines 111–116), strings, lists, dicts
(as insertion-ordered association lists, exactly Python dict order). -/
inductive JValue where
  | null
  | bool (b : Bool)
  | int (n : Int)
  | floatLit (text : List Char)
  | nan
  | inf
  | ninf
  | str (s : List Char)
  | arr (elems : List JValue)
  | obj (props : List (List Char × JValue))

/-- A scanner literal as the Python object handed to the handler
(`None` is Python null). -/
def litToVal : Lit → JValue
  | .none => .null
  | .int n => .int n
  | .float t => .floatLit t
  | .str s => .str s

/-- Property-name payload of a `STRING` token (always a `.str`). -/
def litStr : Lit → List Char
  | .str s => s
  | _ => []

/-- Python `d[k] = v` on an insertion-ordered dict. -/
def dictInsert : List (List Char × JValue) → List Char → JValue → List (List Char × JValue)
  | [], k, v => [(k, v)]
  | (k1, v1) :: rest, k, v =>
      if k1 = k then (k1, v) :: rest else (k1, v1) :: dictInsert rest k v

/-- One entry of the `BuildObjectHandler` stack: a pending property name
(a Python `str`), a list in progress, or a dict in progress.  The head of
the Lean list is the top of the Python stack. -/
inductive Entry where
  | key (name : List Char)
  | arr (elems : List JValue)
  | obj (props : List (List Char × JValue))

/-- The value a stack entry denotes when popped (`self.stack.pop()`). -/
def entryValue : Entry → JValue
  | .key k => .str k
  | .arr a => .arr a
  | .obj m => .obj m

structure HState where
  topLevel : List JValue
  stack : List Entry

def hReset (h : HState) : HState := { h with stack := [] }

def hStartObject (h : HState) : HState := { h with stack := .obj [] :: h.stack }

def hStartArray (h : HState) : HState := { h with stack := .arr [] :: h.stack }

def hProperty (name : List Char) (h : HState) : HState :=
  { h with stack := .key name :: h.stack }

/-- `BuildObjectHandler.element` (lines 56–69).  An empty stack promotes
the value to a completed top-level document; a pending-name top pops the
name and writes `stack[-1][name] = value` (which is a Python `TypeError`
on a list or string below, `IndexError` on nothing below); a list top
appends; a dict top hits `assert False, "not reachable"`. -/
def hElement (v : JValue) (h : HState) : Except Err HState :=
  match h.stack with
  | [] => .ok { h with topLevel := h.topLevel ++ [v] }
  | .key k :: rest =>
    match rest with
    | .obj m :: r2 => .ok { h with stack := .obj (dictInsert m k v) :: r2 }
    | .arr _ :: _ => .error .typeErrorHandler
    | .key _ :: _ => .error .typeErrorHandler
    | [] => .error .indexErrorHandler
  | .arr a :: rest => .ok { h with stack := .arr (a ++ [v]) :: rest }
  | .obj _ :: _ => .error .assertFail

/-- `end_object` / `end_array` (lines 40–50): both pop the stack
(`IndexError` when empty) and route the popped value through `element`. -/
def hPopElement (h : HState) : Except Err HState :=
  match h.stack with
  | [] => .error .indexErrorHandler
  | e :: rest => hElement (entryValue e) { h with stack := rest }

/-! ## Parser (`parser.py` lines 72–219)

Each method is a function `PState → Except Err α × PState`; the state on
the error component is the mutated state at raise time, since Python
exceptions do not roll back `self.scanner` / `self.handler` mutations.
The mutually recursive grammar rules take a fuel argument decremented at
every rule call; `outOfFuel` stands for non-termination, never for a
Python behaviour. -/

structure PState where
  scanner : ScanS
  previous : Option Token
  current : Token
  handler : HState

abbrev PRes (α : Type) := Except Err α × PState

/-- `is_at_end` (line 192). -/
def atEndP (p : PState) : Bool := p.current.type = .eof

/-- `advance` (lines 186–190). -/
def advanceP (p : PState) : PState :=
  if p.current.type = .eof then p
  else
    let r := ScanS.nextTok p.scanner
    { p with previous := some p.current, current := r.1, scanner := r.2 }

/-- `check` (lines 181–184): always false at `EOF`. -/
def checkP (p : PState) (tys : List TokType) : Bool :=
  if p.current.type = .eof then Bool.false else tys.contains p.current.type

/-- `match` (lines 175–179). -/
def matchP (p : PState) (tys : List TokType) : Bool × PState :=
  if checkP p tys then (Bool.true, advanceP p) else (Bool.false, p)

/-- `consume` (lines 198–201), returning the consumed token; `error`
(line 203) ignores its arguments and raises a bare `ParseError`. -/
def consumeP (p : PState) (ty : TokType) : PRes Token :=
  if checkP p [ty] then (.ok p.current, advanceP p) else (.error .parseError, p)

/-- `_get_string` (lines 163–173): run a `StringScanner` from one past
the opening-quote token held in `self.previous`, convert a
`StringScanError` to a `ParseError`, and on success roll the main
scanner's cursor to the string scanner's end and advance. -/
def getStringR (p : PState) : PRes Token :=
  match p.previous with
  | Option.none => (.error .attributeError, p)
  | some tok =>
    let ss : StrS := { source := p.scanner.source, chars := [],
                       current := tok.start + 1, start := tok.start + 1, line := tok.line }
    match StrS.scanString ss with
    | .error (.stringScanError _) => (.error .parseError, p)
    | .error e => (.error e, p)
    | .ok (stok, cur) =>
      let p2 := { p with scanner := { p.scanner with current := cur } }
      (.ok stok, advanceP p2)

/-- `string` (lines 153–161).  The failing branch rewinds the scanner to
one past the opening quote and then calls `self.error` with a single
argument against its two-parameter signature — a Python `TypeError` at
the call site, not a `ParseError`. -/
def stringR (p : PState) : PRes Unit :=
  match p.previous with
  | Option.none => (.error .attributeError, p)
  | some quotes =>
    match getStringR p with
    | (.error e, p1) => (.error e, p1)
    | (.ok stok, p1) =>
      if checkP p1 [.comma, .rightSquareBracket, .rightBrace] then
        match hElement (litToVal stok.literal) p1.handler with
        | .error e => (.error e, p1)
        | .ok h2 => (.ok (), { p1 with handler := h2 })
      else
        (.error .typeErrorBadCall,
          { p1 with scanner := { p1.scanner with current := quotes.start + 1 } })

/-- Loop measure for resynchronization: unread characters, plus one when
the lookahead is not yet `EOF`. -/
def pMeasure (p : PState) : Nat :=
  2 * (p.scanner.source.length - p.scanner.current) +
    (if p.current.type = .eof then 0 else 1)

theorem advanceP_measure (p : PState) (h : p.current.type ≠ .eof) :
    pMeasure (advanceP p) < pMeasure p := by
  unfold pMeasure advanceP
  rw [if_neg h]
  dsimp only
  have hmono := ScanS.nextTok_mono p.scanner
  have hsrc := ScanS.nextTok_source p.scanner
  rw [hsrc, if_neg h]
  by_cases he2 : (ScanS.nextTok p.scanner).1.type = .eof
  · rw [if_pos he2]
    omega
  · rw [if_neg he2]
    rcases ScanS.nextTok_step p.scanner with he | hp
    · exact absurd he he2
    · rcases Nat.lt_or_ge p.scanner.current p.scanner.source.length with hlt | hge
      · omega
      · exact absurd (ScanS.nextTok_atEnd p.scanner hge) he2

/-- The resynchronization loop of `reset` (lines 208–215). -/
def resetLoopF : Nat → PState → PState
  | 0, p => p
  | f+1, p =>
    if p.current.type = .eof then p
    else if p.current.type = .leftSquareBracket ∨ p.current.type = .leftBrace then p
    else resetLoopF f (advanceP p)

def resetLoop (p : PState) : PState :=
  resetLoopF (2 * (p.scanner.source.length - p.scanner.current) + 1) p

theorem resetLoopF_congr : ∀ (f g : Nat) (p : PState), pMeasure p ≤ f → pMeasure p ≤ g →
    resetLoopF f p = resetLoopF g p := by
  intro f
  induction f with
  | zero =>
      intro g p hf hg
      cases g with
      | zero => rfl
      | succ g =>
          have he : p.current.type = .eof := by
            by_contra hne
            have : pMeasure p ≥ 1 := by unfold pMeasure; rw [if_neg hne]; omega
            omega
          simp only [resetLoopF]
          rw [if_pos he]
  | succ f ih =>
      intro g p hf hg
      cases g with
      | zero =>
          have he : p.current.type = .eof := by
            by_contra hne
            have : pMeasure p ≥ 1 := by unfold pMeasure; rw [if_neg hne]; omega
            omega
          simp only [resetLoopF]
          rw [if_pos he]
      | succ g =>
          simp only [resetLoopF]
          by_cases he : p.current.type = .eof
          · simp only [if_pos he]
          · simp only [if_neg he]
            by_cases hb : p.current.type = .leftSquareBracket ∨ p.current.type = .leftBrace
            · simp only [if_pos hb]
            · simp only [if_neg hb]
              have hd := advanceP_measure p he
              exact ih g (advanceP p) (by omega) (by omega)

theorem resetLoop_unfold (p : PState) :
    resetLoop p =
      (if p.current.type = .eof then p
       else if p.current.type = .leftSquareBracket ∨ p.current.type = .leftBrace then p
       else resetLoop (advanceP p)) := by
  show resetLoopF _ p = _
  simp only [resetLoopF]
  by_cases he : p.current.type = .eof
  · simp only [if_pos he]
  · simp only [if_neg he]
    by_cases hb : p.current.type = .leftSquareBracket ∨ p.current.type = .leftBrace
    · simp only [if_pos hb]
    · simp only [if_neg hb]
      show resetLoopF _ _ = resetLoopF _ _
      have hd := advanceP_measure p he
      refine resetLoopF_congr _ _ (advanceP p) ?_ ?_ <;>
        (unfold pMeasure at hd ⊢
         split_ifs at hd ⊢ <;> omega)

theorem resetLoop_induct (motive : PState → Prop)
    (h1 : ∀ p, p.current.type = .eof → motive p)
    (h2 : ∀ p, p.current.type ≠ .eof →
      (p.current.type = .leftSquareBracket ∨ p.current.type = .leftBrace) → motive p)
    (h3 : ∀ p, p.current.type ≠ .eof →
      ¬(p.current.type = .leftSquareBracket ∨ p.current.type = .leftBrace) →
      motive (advanceP p) → motive p) :
    ∀ p, motive p := by
  have main : ∀ (n : Nat) (p : PState), pMeasure p ≤ n → motive p := by
    intro n
    induction n with
    | zero =>
        intro p hn
        refine h1 p ?_
        by_contra hne
        have : pMeasure p ≥ 1 := by unfold pMeasure; rw [if_neg hne]; omega
        omega
    | succ n ih =>
        intro p hn
        by_cases he : p.current.type = .eof
        · exact h1 p he
        · by_cases hb : p.current.type = .leftSquareBracket ∨ p.current.type = .leftBrace
          · exact h2 p he hb
          · have hd := advanceP_measure p he
            exact h3 p he hb (ih (advanceP p) (by omega))
  exact fun p => main (pMeasure p) p (le_refl _)

/-- `reset` (lines 206-215): discard the handler stack, then skip tokens
until a document start or `EOF`. -/
def resetR (p : PState) : PState :=
  resetLoop { p with handler := hReset p.handler }

mutual

/-- `element` (lines 96–118). -/
def elementR : Nat → PState → PRes Unit
  | 0, p => (.error .outOfFuel, p)
  | fuel+1, p =>
    match matchP p [.leftSquareBracket] with
    | (Bool.true, p1) => listR fuel p1
    | (Bool.false, _) =>
    match matchP p [.leftBrace] with
    | (Bool.true, p1) => objectR fuel p1
    | (Bool.false, _) =>
    match matchP p [.quotes] with
    | (Bool.true, p1) => stringR p1
    | (Bool.false, _) =>
    match matchP p [.number] with
    | (Bool.true, p1) =>
      (match p1.previous with
       | Option.none => (.error .attributeError, p1)
       | some tok =>
         match hElement (litToVal tok.literal) p1.handler with
         | .error e => (.error e, p1)
         | .ok h2 => (.ok (), { p1 with handler := h2 }))
    | (Bool.false, _) =>
    match matchP p [.true] with
    | (Bool.true, p1) =>
      (match hElement (.bool Bool.true) p1.handler with
       | .error e => (.error e, p1)
       | .ok h2 => (.ok (), { p1 with handler := h2 }))
    | (Bool.false, _) =>
    match matchP p [.false] with
    | (Bool.true, p1) =>
      (match hElement (.bool Bool.false) p1.handler with
       | .error e => (.error e, p1)
       | .ok h2 => (.ok (), { p1 with handler := h2 }))
    | (Bool.false, _) =>
    match matchP p [.null] with
    | (Bool.true, p1) =>
      (match hElement .null p1.handler with
       | .error e => (.error e, p1)
       | .ok h2 => (.ok (), { p1 with handler := h2 }))
    | (Bool.false, _) =>
    match matchP p [.nan] with
    | (Bool.true, p1) =>
      (match hElement .nan p1.handler with
       | .error e => (.error e, p1)
       | .ok h2 => (.ok (), { p1 with handler := h2 }))
    | (Bool.false, _) =>
    match matchP p [.infinity] with
    | (Bool.true, p1) =>
      (match hElement .inf p1.handler with
       | .error e => (.error e, p1)
       | .ok h2 => (.ok (), { p1 with handler := h2 }))
    | (Bool.false, _) =>
    match matchP p [.minusInfinity] with
    | (Bool.true, p1) =>
      (match hElement .ninf p1.handler with
       | .error e => (.error e, p1)
       | .ok h2 => (.ok (), { p1 with handler := h2 }))
    | (Bool.false, p1) => (.error .parseError, p1)

/-- The element/comma loop of `list` (lines 122–127). -/
def listLoopR : Nat → PState → PRes Unit
  | 0, p => (.error .outOfFuel, p)
  | fuel+1, p =>
    if checkP p [.rightSquareBracket] then (.ok (), p)
    else
      match elementR fuel p with
      | (.error e, p1) => (.error e, p1)
      | (.ok _, p1) =>
        match matchP p1 [.comma] with
        | (Bool.true, p2) => listLoopR fuel p2
        | (Bool.false, p2) => (.ok (), p2)

/-- `list` (lines 120–129). -/
def listR : Nat → PState → PRes Unit
  | 0, p => (.error .outOfFuel, p)
  | fuel+1, p =>
    let p0 := { p with handler := hStartArray p.handler }
    match listLoopR fuel p0 with
    | (.error e, p1) => (.error e, p1)
    | (.ok _, p1) =>
      match consumeP p1 .rightSquareBracket with
      | (.error e, p2) => (.error e, p2)
      | (.ok _, p2) =>
        match hPopElement p2.handler with
        | .error e => (.error e, p2)
        | .ok h2 => (.ok (), { p2 with handler := h2 })

/-- The property/comma loop of `object` (lines 133–138). -/
def objectLoopR : Nat → PState → PRes Unit
  | 0, p => (.error .outOfFuel, p)
  | fuel+1, p =>
    if checkP p [.rightBrace] then (.ok (), p)
    else
      match propertyR fuel p with
      | (.error e, p1) => (.error e, p1)
      | (.ok _, p1) =>
        match matchP p1 [.comma] with
        | (Bool.true, p2) => objectLoopR fuel p2
        | (Bool.false, p2) => (.ok (), p2)

/-- `object` (lines 131–140). -/
def objectR : Nat → PState → PRes Unit
  | 0, p => (.error .outOfFuel, p)
  | fuel+1, p =>
    let p0 := { p with handler := hStartObject p.handler }
    match objectLoopR fuel p0 with
    | (.error e, p1) => (.error e, p1)
    | (.ok _, p1) =>
      match consumeP p1 .rightBrace with
      | (.error e, p2) => (.error e, p2)
      | (.ok _, p2) =>
        match hPopElement p2.handler with
        | .error e => (.error e, p2)
        | .ok h2 => (.ok (), { p2 with handler := h2 })

/-- `property` (lines 142–151): on a `ParseError` or `StringScanError`
raised while reading the name or the colon, rewind the scanner cursor to
one past the opening quote and re-raise. -/
def propertyR : Nat → PState → PRes Unit
  | 0, p => (.error .outOfFuel, p)
  | fuel+1, p =>
    match consumeP p .quotes with
    | (.error e, p1) => (.error e, p1)
    | (.ok quotes, p1) =>
      match ((match getStringR p1 with
              | (.error e, p2) => (.error e, p2)
              | (.ok stok, p2) =>
                match consumeP p2 .colon with
                | (.error e, p3) => (.error e, p3)
                | (.ok _, p3) => (.ok stok, p3)) : PRes Token) with
      | (.error .parseError, p2) =>
          (.error .parseError,
            { p2 with scanner := { p2.scanner with current := quotes.start + 1 } })
      | (.error (.stringScanError r), p2) =>
          (.error (.stringScanError r),
            { p2 with scanner := { p2.scanner with current := quotes.start + 1 } })
      | (.error e, p2) => (.error e, p2)
      | (.ok stok, p2) =>
        let p3 := { p2 with handler := hProperty (litStr stok.literal) p2.handler }
        elementR fuel p3

/-- `broken_document` (lines 89–94): note the missing `return`s — after a
successful list the brace test still runs, and `self.error` is reached
unconditionally. -/
def brokenDocumentR : Nat → PState → PRes Unit
  | fuel, p =>
  let r1 := matchP p [.leftSquareBracket]
  match (if r1.1 then listR fuel r1.2 else (.ok (), r1.2)) with
  | (.error e, p2) => (.error e, p2)
  | (.ok _, p2) =>
    let r2 := matchP p2 [.leftBrace]
    match (if r2.1 then objectR fuel r2.2 else (.ok (), r2.2)) with
    | (.error e, p3) => (.error e, p3)
    | (.ok _, p3) => (.error .parseError, p3)

/-- The top-level loop `json` (lines 82–87): catch exactly `ParseError`,
resynchronize, continue; all other exceptions propagate. -/
def jsonR : Nat → PState → PRes Unit
  | 0, p => (.error .outOfFuel, p)
  | fuel+1, p =>
    if p.current.type = .eof then (.ok (), p)
    else
      match brokenDocumentR fuel p with
      | (.ok _, p1) => jsonR fuel p1
      | (.error .parseError, p1) => jsonR fuel (resetR p1)
      | (.error e, p1) => (.error e, p1)

end

/-- `cli.parse` (`cli.py` lines 25–32) up to the completed-document list:
build the scanner, handler and parser (whose constructor performs the
first `next()`), run `Parser.parse()` (= `json()`), and expose
`handler.top_level`. -/
def runParse (fuel : Nat) (src : List Char) : Except Err (List JValue) × PState :=
  let sc0 : ScanS := { source := src, start := 0, current := 0, line := 1,
                       lineStart := 0, garbage := Bool.false }
  let r := ScanS.nextTok sc0
  let p0 : PState := { scanner := r.2, previous := Option.none, current := r.1,
                       handler := { topLevel := [], stack := [] } }
  match jsonR fuel p0 with
  | (.ok _, p) => (.ok p.handler.topLevel, p)
  | (.error e, p) => (.error e, p)

/-! ## Claim theorems

`scanStream s i` is the `(i+1)`-st token of repeated `Scanner.next()`
calls; `initScan src` is a freshly constructed `Scanner(source)`. -/

def scanStream : ScanS → Nat → Token
  | s, 0 => (ScanS.nextTok s).1
  | s, i+1 => scanStream (ScanS.nextTok s).2 i

def initScan (src : List Char) : ScanS :=
  { source := src, start := 0, current := 0, line := 1, lineStart := 0, garbage := Bool.false }

/-- C4: for every input text (indeed from any scanner state, whatever the
coalescing flag), the token sequence returned by repeated `Scanner.next()`
calls never contains two consecutive `NOISE` (garbage) tokens: a returned
garbage token leaves `self.garbage` set, and with the flag set the next
call absorbs every garbage result until a non-garbage token appears. -/
theorem claim_C4_no_consecutive_noise (s : ScanS) (i : Nat)
    (h : (scanStream s i).type = .garbage) : (scanStream s (i+1)).type ≠ .garbage := by
  induction i generalizing s with
  | zero =>
      show (ScanS.nextTok (ScanS.nextTok s).2).1.type ≠ .garbage
      exact ScanS.nextTok_flagged_no_garbage _ (ScanS.nextTok_garbage_flag s h)
  | succ i ih => exact ih (ScanS.nextTok s).2 h

theorem claim_C4_witness :
    (scanStream (initScan "ab cd [".toList) 0).type = .garbage ∧
      (scanStream (initScan "ab cd [".toList) 1).type ≠ .garbage :=
  ⟨by rfl, claim_C4_no_consecutive_noise (initScan "ab cd [".toList) 0 (by rfl)⟩

/-- C5, counterexample to the claim as stated.  On input `ab cd [` the
maximal run of noise is `ab cd` (offsets 0 through 4).  `next()` emits a
single `NOISE` token for the run — but its lexeme is only the first chunk
`ab`; the `cd` chunk is absorbed by the following call (which returns the
`[` token at offset 6) without ever extending the emitted token, so the
merged token does **not** span from the start of the first chunk through
the end of the last chunk of the run. -/
theorem claim_C5_counterexample :
    (scanStream (initScan "ab cd [".toList) 0).type = .garbage ∧
      (scanStream (initScan "ab cd [".toList) 0).lexeme = "ab".toList ∧
      (scanStream (initScan "ab cd [".toList) 0).lexeme ≠ "ab cd".toList ∧
      (scanStream (initScan "ab cd [".toList) 1).type = .leftSquareBracket ∧
      (scanStream (initScan "ab cd [".toList) 1).start = 6 := by
  refine ⟨by rfl, by rfl, by decide, by rfl, by rfl⟩

/-- C5, amended: for every maximal run of consecutive unrecognized input,
`Scanner.next()` emits exactly one `NOISE` token, namely the raw first
garbage chunk of the run (its lexeme covers only that chunk); while the
garbage flag is set the remaining chunks of the run are silently absorbed
and the next returned token is never garbage. -/
theorem claim_C5_amended_one_noise_token_per_run (s : ScanS) :
    (s.garbage = true → (ScanS.nextTok s).1.type ≠ .garbage) ∧
      (s.garbage = false → (ScanS.scanToken s).1.type = .garbage →
        ScanS.nextTok s = ((ScanS.scanToken s).1,
          { (ScanS.scanToken s).2 with garbage := Bool.true })) := by
  refine ⟨fun hf => ScanS.nextTok_flagged_no_garbage s hf, fun hf hg => ?_⟩
  refine ScanS.nextTok_eq_first s (ScanS.scanToken s).1 (ScanS.scanToken s).2 rfl hg ?_
  rw [ScanS.scanToken_garbage]
  exact hf

theorem claim_C5_amended_witness :
    ((ScanS.nextTok ((ScanS.nextTok (initScan "ab cd [".toList)).2)).1.type ≠ .garbage) ∧
      ScanS.nextTok (initScan "ab cd [".toList) =
        ((ScanS.scanToken (initScan "ab cd [".toList)).1,
          { (ScanS.scanToken (initScan "ab cd [".toList)).2 with garbage := Bool.true }) :=
  ⟨(claim_C5_amended_one_noise_token_per_run ((ScanS.nextTok (initScan "ab cd [".toList)).2)).1
      (by rfl),
   (claim_C5_amended_one_noise_token_per_run (initScan "ab cd [".toList)).2 (by rfl) (by rfl)⟩

/-- C6: from any scanner state, repeated `Scanner.next()` reaches `EOF`
within at most (number of unread characters) calls — so the token
sequence reaches `END` after finitely many calls and everything before
the first `END` is a non-`END` token, i.e. the sequence up to and
including the first `END` contains exactly one `END` — and once an `END`
token is returned every subsequent call returns `END` again (`END` is
never followed by a non-`END` token). -/
theorem claim_C6_scanning_terminates_in_eof (s : ScanS) :
    (∀ m, s.source.length - s.current ≤ m → (scanStream s m).type = .eof) ∧
      (∀ i, (scanStream s i).type = .eof → (scanStream s (i+1)).type = .eof) := by
  constructor
  · intro m
    induction m generalizing s with
    | zero =>
        intro hm
        exact ScanS.nextTok_atEnd s (by omega)
    | succ m ih =>
        intro hm
        show (scanStream (ScanS.nextTok s).2 m).type = .eof
        rcases ScanS.nextTok_step s with he | hlt
        · have hend := ScanS.nextTok_eof_end s he
          refine ih (ScanS.nextTok s).2 ?_
          rw [ScanS.nextTok_source]
          omega
        · refine ih (ScanS.nextTok s).2 ?_
          rw [ScanS.nextTok_source]
          omega
  · intro i
    induction i generalizing s with
    | zero =>
        intro h
        have hend := ScanS.nextTok_eof_end s h
        show (ScanS.nextTok (ScanS.nextTok s).2).1.type = .eof
        refine ScanS.nextTok_atEnd _ ?_
        rw [ScanS.nextTok_source]
        exact hend
    | succ i ih =>
        intro h
        exact ih (ScanS.nextTok s).2 h

theorem claim_C6_witness :
    (scanStream (initScan "ab [".toList) 4).type = .eof ∧
      (scanStream (initScan "ab [".toList) 5).type = .eof :=
  ⟨(claim_C6_scanning_terminates_in_eof (initScan "ab [".toList)).1 4 (by decide),
   (claim_C6_scanning_terminates_in_eof (initScan "ab [".toList)).2 4
     ((claim_C6_scanning_terminates_in_eof (initScan "ab [".toList)).1 4 (by decide))⟩

/-- C3, counterexample to the claim as stated.  The parser invokes
`StringScanner(source, token.start + 1, line)` for an opening quote at
offset `token.start` (`parser.py` line 165), and the constructor stores
that value in `self.start`; a failing `scan_string` raises
`StringScanError(message, self.start)`.  Here the source is `"ab` with
the opening quote at offset 0: the scan runs off the end of input and
the error's restart position is 1 — the offset just past the quote — not
the claimed opening-quote offset 0, and not the failure-point offset. -/
theorem claim_C3_counterexample :
    StrS.scanString { source := ('"' :: "ab".toList), chars := [], current := 0 + 1, start := 0 + 1, line := 1 } =
      .error (.stringScanError 1) ∧ (1 : Nat) ≠ 0 :=
  ⟨by rfl, by decide⟩

/-- C3, amended: every `StringScanError` raised by
`StringScanner.scan_string` (from the parser's constructor pattern, whose
`start` cursor points one past the opening quote) carries a restart
position equal to that constructor-time `start` — the offset just past
the opening quote, i.e. opening-quote offset + 1 — never the current
scan offset. -/
theorem claim_C3_amended_restart_is_start (src : List Char) (start line r : Nat)
    (h : StrS.scanString { source := src, chars := [], current := start, start := start, line := line } = .error (.stringScanError r)) :
    r = start := by
  rcases StrS.scanString_err _ _ h with h1 | h2
  · cases h1; rfl
  · cases h2

theorem claim_C3_amended_witness : (1 : Nat) = 1 :=
  claim_C3_amended_restart_is_start ('"' :: "ab".toList) 1 1 1 (by rfl)

/-- C10: on the input `{"\uZZZZ":1}`, whose `\u` escape is followed by
four characters that are not hexadecimal digits, `int(hexcode, 16)`
raises `ValueError` — not `StringScanError` (second conjunct, the string
scanner run the parser performs from offset 2) — and since the top-level
loop catches only `ParseError`, the `ValueError` escapes
`Parser.parse()` to the caller (first conjunct, the full pipeline). -/
theorem claim_C10_bad_unicode_escape_valueError :
    (runParse 50 "\x7b\"\\uZZZZ\":1\x7d".toList).1 = .error .valueError ∧
      StrS.scanString { source := "\x7b\"\\uZZZZ\":1\x7d".toList, chars := [], current := 2, start := 2, line := 1 } = .error .valueError :=
  ⟨by rfl, by rfl⟩

/-! ### C8: integer versus floating-point decoding of number literals -/

/-- End of the run of decimal digits starting at `i` (the cursor position
after `while self._peek().isdigit(): self._advance()`). -/
def digitEndF : Nat → List Char → Nat → Nat
  | 0, _, i => i
  | f+1, src, i => if i < src.length ∧ (charAt src i).isDigit then digitEndF f src (i+1) else i

def digitEnd (src : List Char) (i : Nat) : Nat := digitEndF (src.length - i) src i

theorem digitEndF_congr : ∀ (f g : Nat) (src : List Char) (i : Nat), src.length - i ≤ f →
    src.length - i ≤ g → digitEndF f src i = digitEndF g src i := by
  intro f
  induction f with
  | zero =>
      intro g src i hf hg
      cases g with
      | zero => rfl
      | succ g =>
          simp only [digitEndF]
          rw [if_neg (fun hc => absurd hc.1 (by omega))]
  | succ f ih =>
      intro g src i hf hg
      cases g with
      | zero =>
          simp only [digitEndF]
          rw [if_neg (fun hc => absurd hc.1 (by omega))]
      | succ g =>
          simp only [digitEndF]
          split_ifs with hc
          · exact ih g src (i+1) (by omega) (by omega)
          · rfl

theorem digitEnd_unfold (src : List Char) (i : Nat) :
    digitEnd src i =
      if i < src.length ∧ (charAt src i).isDigit then digitEnd src (i+1) else i := by
  unfold digitEnd
  cases hf : src.length - i with
  | zero =>
      simp only [digitEndF]
      rw [if_neg (fun hc => absurd hc.1 (by omega))]
  | succ f =>
      simp only [digitEndF]
      split_ifs with hc
      · exact digitEndF_congr f (src.length - (i+1)) src (i+1) (by omega) (le_refl _)
      · rfl

theorem skipDigits_eq (s : ScanS) :
    ScanS.skipDigits s = { s with current := digitEnd s.source s.current } := by
  induction s using ScanS.skipDigits_induct with
  | h1 s h ih =>
      rw [ScanS.skipDigits_unfold, if_pos h, ih]
      simp only [ScanS.bump]
      rw [digitEnd_unfold s.source s.current, if_pos (⟨h.1, h.2⟩ :
        s.current < s.source.length ∧ (charAt s.source s.current).isDigit = true)]
  | h2 s h =>
      rw [ScanS.skipDigits_unfold, if_neg h]
      rw [digitEnd_unfold s.source s.current, if_neg (fun hc => h ⟨hc.1, hc.2⟩)]

/-- The claim's fractional-part condition: a `.` counts as starting a
fractional part only when followed by at least one digit. -/
def fracStartsHere (src : List Char) (d : Nat) : Prop :=
  charAt src d = '.' ∧ (charAt src (d+1)).isDigit

/-- The claim's exponent condition: an `e`/`E` counts as an exponent only
when followed by (an optional sign and) at least one digit. -/
def expStartsHere (src : List Char) (e : Nat) : Prop :=
  (charAt src e = 'e' ∨ charAt src e = 'E') ∧
    ((charAt src (e+1)).isDigit ∨
      ((charAt src (e+1) = '-' ∨ charAt src (e+1) = '+') ∧ (charAt src (e+2)).isDigit))

instance (src : List Char) (d : Nat) : Decidable (fracStartsHere src d) := by
  unfold fracStartsHere; infer_instance

instance (src : List Char) (e : Nat) : Decidable (expStartsHere src e) := by
  unfold expStartsHere; infer_instance

theorem fracStartsHere_iff (src : List Char) (d : Nat) :
    (((charAt src d == '.') && (charAt src (d+1)).isDigit) = true) ↔ fracStartsHere src d := by
  simp [fracStartsHere]

theorem expStartsHere_iff (src : List Char) (e : Nat) :
    ((((charAt src e == 'e') || (charAt src e == 'E')) &&
      ((((charAt src (e+1) == '-') || (charAt src (e+1) == '+')) && (charAt src (e+2)).isDigit)
        || (charAt src (e+1)).isDigit)) = true) ↔ expStartsHere src e := by
  simp [expStartsHere]
  tauto

theorem add_two_sub_one (n : Nat) : n + 2 - 1 = n + 1 := rfl

theorem add_three_sub_one (n : Nat) : n + 3 - 1 = n + 2 := rfl

set_option maxHeartbeats 1600000 in
/-- C8: every token produced by `_number` has type NUMBER, and its literal is
decoded from its lexeme as an exact integer (arbitrary precision, `int`)
exactly when no fractional part and no exponent part is present, and as a
floating-point value otherwise; a `.` counts as starting a fractional part
only when followed by a digit, and an `e`/`E` counts as an exponent only when
followed by an optional sign and a digit. -/
theorem claim_C8_number_decoding (st : ScanS) :
    (ScanS.number st).1.type = .number ∧
    (ScanS.number st).1.literal =
      (if fracStartsHere st.source (digitEnd st.source st.current) ∨
          expStartsHere st.source
            (if fracStartsHere st.source (digitEnd st.source st.current)
             then digitEnd st.source (digitEnd st.source st.current + 1)
             else digitEnd st.source st.current)
       then Lit.float (ScanS.number st).1.lexeme
       else Lit.int (pyInt (ScanS.number st).1.lexeme)) ∧
    ((∃ n, (ScanS.number st).1.literal = .int n) ↔
      (¬ fracStartsHere st.source (digitEnd st.source st.current) ∧
       ¬ expStartsHere st.source
         (if fracStartsHere st.source (digitEnd st.source st.current)
          then digitEnd st.source (digitEnd st.source st.current + 1)
          else digitEnd st.source st.current))) := by
  refine ⟨by simp only [ScanS.number, ScanS.newToken], ?_, ?_⟩
  · simp only [ScanS.number, skipDigits_eq, ScanS.newToken, ScanS.peek, ScanS.bump]
    simp only [Nat.add_sub_cancel, add_two_sub_one, add_three_sub_one]
    by_cases hf : fracStartsHere st.source (digitEnd st.source st.current)
    · have hfb := (fracStartsHere_iff st.source (digitEnd st.source st.current)).mpr hf
      simp only [hfb, Bool.true_or, if_pos hf]
      simp [hf]
    · have hfb : ((charAt st.source (digitEnd st.source st.current) == '.') &&
          (charAt st.source (digitEnd st.source st.current + 1)).isDigit) = false := by
        rw [Bool.eq_false_iff]
        intro hh
        exact hf ((fracStartsHere_iff _ _).mp hh)
      simp only [hfb, Bool.false_or, if_neg hf]
      simp only [Bool.false_eq_true, if_false]
      by_cases he : expStartsHere st.source (digitEnd st.source st.current)
      · have heb := (expStartsHere_iff st.source (digitEnd st.source st.current)).mpr he
        simp only [heb]
        simp [hf, he]
      · have heb : (((charAt st.source (digitEnd st.source st.current) == 'e') ||
            (charAt st.source (digitEnd st.source st.current) == 'E')) &&
            ((((charAt st.source (digitEnd st.source st.current + 1) == '-') ||
               (charAt st.source (digitEnd st.source st.current + 1) == '+')) &&
              (charAt st.source (digitEnd st.source st.current + 2)).isDigit)
              || (charAt st.source (digitEnd st.source st.current + 1)).isDigit)) = false := by
          rw [Bool.eq_false_iff]
          intro hh
          exact he ((expStartsHere_iff _ _).mp hh)
        simp only [heb]
        simp [hf, he]
  · simp only [ScanS.number, skipDigits_eq, ScanS.newToken, ScanS.peek, ScanS.bump]
    simp only [Nat.add_sub_cancel, add_two_sub_one, add_three_sub_one]
    by_cases hf : fracStartsHere st.source (digitEnd st.source st.current)
    · have hfb := (fracStartsHere_iff st.source (digitEnd st.source st.current)).mpr hf
      simp only [hfb, Bool.true_or, if_pos hf]
      simp [hf]
    · have hfb : ((charAt st.source (digitEnd st.source st.current) == '.') &&
          (charAt st.source (digitEnd st.source st.current + 1)).isDigit) = false := by
        rw [Bool.eq_false_iff]
        intro hh
        exact hf ((fracStartsHere_iff _ _).mp hh)
      simp only [hfb, Bool.false_or, if_neg hf]
      simp only [Bool.false_eq_true, if_false]
      by_cases he : expStartsHere st.source (digitEnd st.source st.current)
      · have heb := (expStartsHere_iff st.source (digitEnd st.source st.current)).mpr he
        simp only [heb]
        simp [hf, he]
      · have heb : (((charAt st.source (digitEnd st.source st.current) == 'e') ||
            (charAt st.source (digitEnd st.source st.current) == 'E')) &&
            ((((charAt st.source (digitEnd st.source st.current + 1) == '-') ||
               (charAt st.source (digitEnd st.source st.current + 1) == '+')) &&
              (charAt st.source (digitEnd st.source st.current + 2)).isDigit)
              || (charAt st.source (digitEnd st.source st.current + 1)).isDigit)) = false := by
          rw [Bool.eq_false_iff]
          intro hh
          exact he ((expStartsHere_iff _ _).mp hh)
        simp only [heb]
        simp [hf, he]

/-! ## Stack-shape invariants (C2, C9)

`ER` captures the handler-stack shapes at which `element` may be invoked:
empty, an array in progress on top, or a pending property name directly
above its object.  `StepOk s s'` relates such a stack to the stack left
behind by one successful `hElement` call. -/

inductive ER : List Entry → Prop where
  | nil : ER []
  | arr (a : List JValue) (r : List Entry) : ER r → ER (Entry.arr a :: r)
  | keyobj (k : List Char) (m : List (List Char × JValue)) (r : List Entry) :
      ER r → ER (Entry.key k :: Entry.obj m :: r)

inductive StepOk : List Entry → List Entry → Prop where
  | nil : StepOk [] []
  | arr (a a' : List JValue) (r : List Entry) :
      StepOk (Entry.arr a :: r) (Entry.arr a' :: r)
  | keyobj (k : List Char) (m m' : List (List Char × JValue)) (r : List Entry) :
      StepOk (Entry.key k :: Entry.obj m :: r) (Entry.obj m' :: r)

theorem StepOk_nil_inv (s' : List Entry) (h : StepOk [] s') : s' = [] := by
  cases h; rfl

theorem StepOk_arr_inv (a : List JValue) (r s' : List Entry)
    (h : StepOk (Entry.arr a :: r) s') : ∃ a', s' = Entry.arr a' :: r := by
  cases h with
  | arr _ a' _ => exact ⟨a', rfl⟩

theorem StepOk_keyobj_inv (k : List Char) (m : List (List Char × JValue)) (r s' : List Entry)
    (h : StepOk (Entry.key k :: Entry.obj m :: r) s') : ∃ m', s' = Entry.obj m' :: r := by
  cases h with
  | keyobj _ _ m' _ => exact ⟨m', rfl⟩

theorem ER_arr_inv (a : List JValue) (r : List Entry) (h : ER (Entry.arr a :: r)) : ER r := by
  cases h with
  | arr _ _ hr => exact hr

theorem ER_keyobj_inv (k : List Char) (m : List (List Char × JValue)) (r : List Entry)
    (h : ER (Entry.key k :: Entry.obj m :: r)) : ER r := by
  cases h with
  | keyobj _ _ _ hr => exact hr

/-- On every stack shape reachable at an `element` call site,
`BuildObjectHandler.element` succeeds (no `TypeError`, `IndexError` or
`assert False`) and transforms the stack by `StepOk`. -/
theorem hElement_ER (v : JValue) (h : HState) (he : ER h.stack) :
    ∃ h2, hElement v h = .ok h2 ∧ StepOk h.stack h2.stack := by
  obtain ⟨tl, stk⟩ := h
  dsimp only at he ⊢
  cases he with
  | nil => exact ⟨_, rfl, StepOk.nil⟩
  | arr a r hr => exact ⟨_, rfl, StepOk.arr a (a ++ [v]) r⟩
  | keyobj k m r hr => exact ⟨_, rfl, StepOk.keyobj k m (dictInsert m k v) r⟩

/-- `end_array` on an array top over an element-ready tail: the pop and
re-dispatch both succeed. -/
theorem hPop_arr (h : HState) (b : List JValue) (r : List Entry)
    (hs : h.stack = Entry.arr b :: r) (hr : ER r) :
    ∃ h2, hPopElement h = .ok h2 ∧ StepOk r h2.stack := by
  obtain ⟨tl, stk⟩ := h
  dsimp only at hs
  subst hs
  show ∃ h2, hElement (entryValue (Entry.arr b)) { topLevel := tl, stack := r } = .ok h2 ∧ _
  exact hElement_ER _ _ hr

/-- `end_object` on an object top over an element-ready tail. -/
theorem hPop_obj (h : HState) (m : List (List Char × JValue)) (r : List Entry)
    (hs : h.stack = Entry.obj m :: r) (hr : ER r) :
    ∃ h2, hPopElement h = .ok h2 ∧ StepOk r h2.stack := by
  obtain ⟨tl, stk⟩ := h
  dsimp only at hs
  subst hs
  show ∃ h2, hElement (entryValue (Entry.obj m)) { topLevel := tl, stack := r } = .ok h2 ∧ _
  exact hElement_ER _ _ hr

/-! ### Parser-state bookkeeping lemmas -/

theorem advanceP_handler (p : PState) : (advanceP p).handler = p.handler := by
  unfold advanceP
  split <;> rfl

theorem matchP_handler (p : PState) (tys : List TokType) :
    (matchP p tys).2.handler = p.handler := by
  unfold matchP
  split
  · exact advanceP_handler p
  · rfl

theorem matchP_true_previous (p : PState) (tys : List TokType)
    (h : (matchP p tys).1 = Bool.true) : (matchP p tys).2.previous = some p.current := by
  unfold matchP at h ⊢
  split at h
  · rename_i hc
    have hne : ¬ p.current.type = .eof := by
      unfold checkP at hc
      intro he
      rw [if_pos he] at hc
      cases hc
    simp only [if_pos (by assumption : checkP p tys = Bool.true)]
    unfold advanceP
    rw [if_neg hne]
  · cases h

theorem consumeP_handler (p : PState) (ty : TokType) :
    (consumeP p ty).2.handler = p.handler := by
  unfold consumeP
  split
  · exact advanceP_handler p
  · rfl

theorem consumeP_err (p : PState) (ty : TokType) (e : Err) (p1 : PState)
    (h : consumeP p ty = (.error e, p1)) : e = .parseError := by
  unfold consumeP at h
  split at h
  · cases h
  · cases h; rfl

theorem consumeP_ok_previous (p : PState) (ty : TokType) (tok : Token) (p1 : PState)
    (h : consumeP p ty = (.ok tok, p1)) : p1.previous = some p.current := by
  unfold consumeP at h
  split at h
  · rename_i hc
    cases h
    have hne : ¬ p.current.type = .eof := by
      unfold checkP at hc
      intro he
      rw [if_pos he] at hc
      cases hc
    unfold advanceP
    rw [if_neg hne]
  · cases h

theorem getStringR_handler (p : PState) : (getStringR p).2.handler = p.handler := by
  unfold getStringR
  rcases p.previous with _ | tok
  · rfl
  · dsimp only
    rcases h : StrS.scanString _ with e | pr
    · rcases e with _ | r | _ | _ | _ | _ | _ | _ | _ | _ <;> rfl
    · exact advanceP_handler _

theorem getStringR_err (p : PState) (q : Token) (e : Err) (p1 : PState)
    (hprev : p.previous = some q) (h : getStringR p = (.error e, p1)) :
    e = .parseError ∨ e = .valueError := by
  unfold getStringR at h
  rw [hprev] at h
  dsimp only at h
  rcases hs : StrS.scanString { source := p.scanner.source, chars := [], current := q.start + 1, start := q.start + 1, line := q.line } with e2 | pr
  · rw [hs] at h
    rcases StrS.scanString_err _ _ hs with h1 | h1
    · subst h1
      cases h
      left; rfl
    · subst h1
      cases h
      right; rfl
  · rw [hs] at h
    cases h

/-- The error values that the spec's recovery story accounts for:
`ParseError` (caught at the top loop), the Python `ValueError` and
`TypeError` escapes, and fuel exhaustion (a model artifact). -/
def OkErr (e : Err) : Prop :=
  e = .parseError ∨ e = .valueError ∨ e = .typeErrorBadCall ∨ e = .outOfFuel

/-- Contract of a grammar rule entered at an element-ready stack `s`:
on success the stack is transformed by `StepOk`; on failure the error is
one of the accounted-for values. -/
def ProcOk (res : PRes Unit) (s : List Entry) : Prop :=
  match res with
  | (.ok _, p2) => StepOk s p2.handler.stack
  | (.error e, _) => OkErr e

/-- `string()` satisfies the element contract whenever `self.previous`
is set (it always is at its call site). -/
theorem stringR_contract (p : PState) (q : Token) (hprev : p.previous = some q)
    (he : ER p.handler.stack) : ProcOk (stringR p) p.handler.stack := by
  unfold stringR
  rw [hprev]
  dsimp only
  rcases hg : getStringR p with ⟨res, p1⟩
  have hh : p1.handler = p.handler := by
    have := getStringR_handler p
    rw [hg] at this
    exact this
  rcases res with e | stok
  · show ProcOk (.error e, p1) _
    show OkErr e
    rcases getStringR_err p q e p1 hprev hg with h1 | h1
    · exact Or.inl h1
    · exact Or.inr (Or.inl h1)
  · dsimp only
    by_cases hc : checkP p1 [.comma, .rightSquareBracket, .rightBrace] = Bool.true
    · rw [if_pos hc]
      obtain ⟨h2, heq, hstep⟩ := hElement_ER (litToVal stok.literal) p1.handler (hh ▸ he)
      rw [heq]
      show StepOk p.handler.stack h2.stack
      rw [← hh]
      exact hstep
    · rw [if_neg hc]
      show OkErr .typeErrorBadCall
      exact Or.inr (Or.inr (Or.inl rfl))

def ElemC (fuel : Nat) : Prop :=
  ∀ p : PState, ER p.handler.stack → ProcOk (elementR fuel p) p.handler.stack

def ListLoopC (fuel : Nat) : Prop :=
  ∀ (p : PState) (a : List JValue) (r : List Entry),
    p.handler.stack = Entry.arr a :: r → ER r →
    match listLoopR fuel p with
    | (.ok _, p2) => ∃ b, p2.handler.stack = Entry.arr b :: r
    | (.error e, _) => OkErr e

def ListC (fuel : Nat) : Prop :=
  ∀ p : PState, ER p.handler.stack → ProcOk (listR fuel p) p.handler.stack

def ObjLoopC (fuel : Nat) : Prop :=
  ∀ (p : PState) (m : List (List Char × JValue)) (r : List Entry),
    p.handler.stack = Entry.obj m :: r → ER r →
    match objectLoopR fuel p with
    | (.ok _, p2) => ∃ m2, p2.handler.stack = Entry.obj m2 :: r
    | (.error e, _) => OkErr e

def ObjC (fuel : Nat) : Prop :=
  ∀ p : PState, ER p.handler.stack → ProcOk (objectR fuel p) p.handler.stack

def PropC (fuel : Nat) : Prop :=
  ∀ (p : PState) (m : List (List Char × JValue)) (r : List Entry),
    p.handler.stack = Entry.obj m :: r → ER r →
    match propertyR fuel p with
    | (.ok _, p2) => ∃ m2, p2.handler.stack = Entry.obj m2 :: r
    | (.error e, _) => OkErr e

theorem parser_contract : ∀ fuel : Nat,
    ElemC fuel ∧ ListLoopC fuel ∧ ListC fuel ∧ ObjLoopC fuel ∧ ObjC fuel ∧ PropC fuel := by
  intro fuel
  induction fuel with
  | zero =>
      refine ⟨?_, ?_, ?_, ?_, ?_, ?_⟩
      · intro p he
        exact Or.inr (Or.inr (Or.inr rfl))
      · intro p a r hs hr
        exact Or.inr (Or.inr (Or.inr rfl))
      · intro p he
        exact Or.inr (Or.inr (Or.inr rfl))
      · intro p m r hs hr
        exact Or.inr (Or.inr (Or.inr rfl))
      · intro p he
        exact Or.inr (Or.inr (Or.inr rfl))
      · intro p m r hs hr
        exact Or.inr (Or.inr (Or.inr rfl))
  | succ fuel ih =>
      obtain ⟨ihE, ihLL, ihL, ihOL, ihO, ihP⟩ := ih
      have hLL : ListLoopC (fuel+1) := by
        intro p a r hs hr
        simp only [listLoopR]
        by_cases hc : checkP p [.rightSquareBracket] = Bool.true
        · rw [if_pos hc]
          exact ⟨a, hs⟩
        · rw [if_neg hc]
          have hq : ER p.handler.stack := by rw [hs]; exact ER.arr a r hr
          have hE := ihE p hq
          rcases hel : elementR fuel p with ⟨res, p1⟩
          rw [hel] at hE
          rcases res with e | u
          · exact hE
          · dsimp only
            rw [hs] at hE
            obtain ⟨a1, ha1⟩ := StepOk_arr_inv a r _ hE
            rcases hm : matchP p1 [.comma] with ⟨b, p2⟩
            have hh2 : p2.handler = p1.handler := by
              have := matchP_handler p1 [.comma]
              rw [hm] at this
              exact this
            cases b
            · dsimp only
              exact ⟨a1, by rw [hh2, ha1]⟩
            · dsimp only
              exact ihLL p2 a1 r (by rw [hh2, ha1]) hr
      have hL : ListC (fuel+1) := by
        intro p he
        simp only [listR]
        have hll := ihLL { p with handler := hStartArray p.handler } [] p.handler.stack rfl he
        rcases hl : listLoopR fuel { p with handler := hStartArray p.handler } with ⟨res, p1⟩
        rw [hl] at hll
        rcases res with e | u
        · exact hll
        · dsimp only
          obtain ⟨b, hb⟩ := hll
          rcases hcs : consumeP p1 .rightSquareBracket with ⟨res2, p2⟩
          have hh2 : p2.handler = p1.handler := by
            have := consumeP_handler p1 .rightSquareBracket
            rw [hcs] at this
            exact this
          rcases res2 with e | tok
          · dsimp only
            have := consumeP_err p1 .rightSquareBracket e p2 hcs
            subst this
            exact Or.inl rfl
          · dsimp only
            obtain ⟨h2, heq, hstep⟩ := hPop_arr p2.handler b p.handler.stack (by rw [hh2, hb]) he
            rw [heq]
            exact hstep
      have hOL : ObjLoopC (fuel+1) := by
        intro p m r hs hr
        simp only [objectLoopR]
        by_cases hc : checkP p [.rightBrace] = Bool.true
        · rw [if_pos hc]
          exact ⟨m, hs⟩
        · rw [if_neg hc]
          have hE := ihP p m r hs hr
          rcases hel : propertyR fuel p with ⟨res, p1⟩
          rw [hel] at hE
          rcases res with e | u
          · exact hE
          · dsimp only
            obtain ⟨m1, hm1⟩ := hE
            rcases hm : matchP p1 [.comma] with ⟨b, p2⟩
            have hh2 : p2.handler = p1.handler := by
              have := matchP_handler p1 [.comma]
              rw [hm] at this
              exact this
            cases b
            · dsimp only
              exact ⟨m1, by rw [hh2, hm1]⟩
            · dsimp only
              exact ihOL p2 m1 r (by rw [hh2, hm1]) hr
      have hO : ObjC (fuel+1) := by
        intro p he
        simp only [objectR]
        have hol := ihOL { p with handler := hStartObject p.handler } [] p.handler.stack rfl he
        rcases hl : objectLoopR fuel { p with handler := hStartObject p.handler } with ⟨res, p1⟩
        rw [hl] at hol
        rcases res with e | u
        · exact hol
        · dsimp only
          obtain ⟨m1, hb⟩ := hol
          rcases hcs : consumeP p1 .rightBrace with ⟨res2, p2⟩
          have hh2 : p2.handler = p1.handler := by
            have := consumeP_handler p1 .rightBrace
            rw [hcs] at this
            exact this
          rcases res2 with e | tok
          · dsimp only
            have := consumeP_err p1 .rightBrace e p2 hcs
            subst this
            exact Or.inl rfl
          · dsimp only
            obtain ⟨h2, heq, hstep⟩ := hPop_obj p2.handler m1 p.handler.stack (by rw [hh2, hb]) he
            rw [heq]
            exact hstep
      have hP : PropC (fuel+1) := by
        intro p m r hs hr
        simp only [propertyR]
        rcases hcq : consumeP p .quotes with ⟨res1, p1⟩
        rcases res1 with e | quotes
        · dsimp only
          have := consumeP_err p .quotes e p1 hcq
          subst this
          exact Or.inl rfl
        · dsimp only
          have hp1prev : p1.previous = some p.current := consumeP_ok_previous p .quotes quotes p1 hcq
          have hp1h : p1.handler = p.handler := by
            have := consumeP_handler p .quotes
            rw [hcq] at this
            exact this
          rcases hg : getStringR p1 with ⟨res2, p2⟩
          have hp2h : p2.handler = p1.handler := by
            have := getStringR_handler p1
            rw [hg] at this
            exact this
          rcases res2 with e | stok
          · dsimp only
            rcases getStringR_err p1 p.current e p2 hp1prev hg with h1 | h1 <;> subst h1
            · dsimp only
              exact Or.inl rfl
            · dsimp only
              exact Or.inr (Or.inl rfl)
          · dsimp only
            rcases hcc : consumeP p2 .colon with ⟨res3, p3⟩
            have hp3h : p3.handler = p2.handler := by
              have := consumeP_handler p2 .colon
              rw [hcc] at this
              exact this
            rcases res3 with e | ctok
            · dsimp only
              have := consumeP_err p2 .colon e p3 hcc
              subst this
              dsimp only
              exact Or.inl rfl
            · dsimp only
              have hst : ({ p3 with handler := hProperty (litStr stok.literal) p3.handler } : PState).handler.stack =
                  Entry.key (litStr stok.literal) :: Entry.obj m :: r := by
                show (hProperty (litStr stok.literal) p3.handler).stack = _
                unfold hProperty
                dsimp only
                rw [hp3h, hp2h, hp1h, hs]
              have hER : ER ({ p3 with handler := hProperty (litStr stok.literal) p3.handler } : PState).handler.stack := by
                rw [hst]
                exact ER.keyobj _ m r hr
              have hE := ihE { p3 with handler := hProperty (litStr stok.literal) p3.handler } hER
              rcases hel : elementR fuel { p3 with handler := hProperty (litStr stok.literal) p3.handler } with ⟨res4, p5⟩
              rw [hel] at hE
              rcases res4 with e | u
              · exact hE
              · dsimp only [ProcOk] at hE
                rw [hst] at hE
                exact StepOk_keyobj_inv _ m r _ hE
      have hE : ElemC (fuel+1) := by
        intro p he
        simp only [elementR]
        rcases hm1 : matchP p [.leftSquareBracket] with ⟨b1, q1⟩
        cases b1
        · dsimp only
          rcases hm2 : matchP p [.leftBrace] with ⟨b2, q2⟩
          cases b2
          · dsimp only
            rcases hm3 : matchP p [.quotes] with ⟨b3, q3⟩
            cases b3
            · dsimp only
              rcases hm4 : matchP p [.number] with ⟨b4, q4⟩
              cases b4
              · dsimp only
                rcases hm5 : matchP p [.true] with ⟨b5, q5⟩
                cases b5
                · dsimp only
                  rcases hm6 : matchP p [.false] with ⟨b6, q6⟩
                  cases b6
                  · dsimp only
                    rcases hm7 : matchP p [.null] with ⟨b7, q7⟩
                    cases b7
                    · dsimp only
                      rcases hm8 : matchP p [.nan] with ⟨b8, q8⟩
                      cases b8
                      · dsimp only
                        rcases hm9 : matchP p [.infinity] with ⟨b9, q9⟩
                        cases b9
                        · dsimp only
                          rcases hm10 : matchP p [.minusInfinity] with ⟨b10, q10⟩
                          cases b10
                          · dsimp only
                            exact Or.inl rfl
                          · dsimp only
                            have hqh10 : q10.handler = p.handler := by
                              have := matchP_handler p [.minusInfinity]
                              rw [hm10] at this
                              exact this
                            have hq10 : ER q10.handler.stack := by rw [hqh10]; exact he
                            obtain ⟨h2, heq, hstep⟩ := hElement_ER JValue.ninf q10.handler hq10
                            rw [heq]
                            show StepOk p.handler.stack h2.stack
                            rw [hqh10] at hstep
                            exact hstep
                        · dsimp only
                          have hqh9 : q9.handler = p.handler := by
                            have := matchP_handler p [.infinity]
                            rw [hm9] at this
                            exact this
                          have hq9 : ER q9.handler.stack := by rw [hqh9]; exact he
                          obtain ⟨h2, heq, hstep⟩ := hElement_ER JValue.inf q9.handler hq9
                          rw [heq]
                          show StepOk p.handler.stack h2.stack
                          rw [hqh9] at hstep
                          exact hstep
                      · dsimp only
                        have hqh8 : q8.handler = p.handler := by
                          have := matchP_handler p [.nan]
                          rw [hm8] at this
                          exact this
                        have hq8 : ER q8.handler.stack := by rw [hqh8]; exact he
                        obtain ⟨h2, heq, hstep⟩ := hElement_ER JValue.nan q8.handler hq8
                        rw [heq]
                        show StepOk p.handler.stack h2.stack
                        rw [hqh8] at hstep
                        exact hstep
                    · dsimp only
                      have hqh7 : q7.handler = p.handler := by
                        have := matchP_handler p [.null]
                        rw [hm7] at this
                        exact this
                      have hq7 : ER q7.handler.stack := by rw [hqh7]; exact he
                      obtain ⟨h2, heq, hstep⟩ := hElement_ER JValue.null q7.handler hq7
                      rw [heq]
                      show StepOk p.handler.stack h2.stack
                      rw [hqh7] at hstep
                      exact hstep
                  · dsimp only
                    have hqh6 : q6.handler = p.handler := by
                      have := matchP_handler p [.false]
                      rw [hm6] at this
                      exact this
                    have hq6 : ER q6.handler.stack := by rw [hqh6]; exact he
                    obtain ⟨h2, heq, hstep⟩ := hElement_ER (JValue.bool Bool.false) q6.handler hq6
                    rw [heq]
                    show StepOk p.handler.stack h2.stack
                    rw [hqh6] at hstep
                    exact hstep
                · dsimp only
                  have hqh5 : q5.handler = p.handler := by
                    have := matchP_handler p [.true]
                    rw [hm5] at this
                    exact this
                  have hq5 : ER q5.handler.stack := by rw [hqh5]; exact he
                  obtain ⟨h2, heq, hstep⟩ := hElement_ER (JValue.bool Bool.true) q5.handler hq5
                  rw [heq]
                  show StepOk p.handler.stack h2.stack
                  rw [hqh5] at hstep
                  exact hstep
              · dsimp only
                have hqh4 : q4.handler = p.handler := by
                  have := matchP_handler p [.number]
                  rw [hm4] at this
                  exact this
                have hq4 : ER q4.handler.stack := by rw [hqh4]; exact he
                have hb4 : (matchP p [.number]).1 = Bool.true := by rw [hm4]
                have hp4 := matchP_true_previous p [.number] hb4
                rw [hm4] at hp4
                rw [hp4]
                dsimp only
                obtain ⟨h2, heq, hstep⟩ := hElement_ER (litToVal p.current.literal) q4.handler hq4
                rw [heq]
                show StepOk p.handler.stack h2.stack
                rw [hqh4] at hstep
                exact hstep
            · dsimp only
              have hqh3 : q3.handler = p.handler := by
                have := matchP_handler p [.quotes]
                rw [hm3] at this
                exact this
              have hq3 : ER q3.handler.stack := by rw [hqh3]; exact he
              have hb3 : (matchP p [.quotes]).1 = Bool.true := by rw [hm3]
              have hp3 := matchP_true_previous p [.quotes] hb3
              rw [hm3] at hp3
              have hc3 := stringR_contract q3 p.current hp3 hq3
              rw [hqh3] at hc3
              exact hc3
          · dsimp only
            have hqh2 : q2.handler = p.handler := by
              have := matchP_handler p [.leftBrace]
              rw [hm2] at this
              exact this
            have hq2 : ER q2.handler.stack := by rw [hqh2]; exact he
            have hc2 := ihO q2 hq2
            rw [hqh2] at hc2
            exact hc2
        · dsimp only
          have hqh1 : q1.handler = p.handler := by
            have := matchP_handler p [.leftSquareBracket]
            rw [hm1] at this
            exact this
          have hq1 : ER q1.handler.stack := by rw [hqh1]; exact he
          have hc1 := ihL q1 hq1
          rw [hqh1] at hc1
          exact hc1
      exact ⟨hE, hLL, hL, hOL, hO, hP⟩

/-- `broken_document` always raises (never returns normally), and only
with an accounted-for error, whenever it is entered at an empty handler
stack — which is how the top-level loop always enters it. -/
theorem brokenDocumentR_contract (fuel : Nat) (p : PState) (hs : p.handler.stack = []) :
    ∃ e p2, brokenDocumentR fuel p = (.error e, p2) ∧ OkErr e := by
  simp only [brokenDocumentR]
  rcases hm1 : matchP p [.leftSquareBracket] with ⟨b1, q1⟩
  have hq1h : q1.handler = p.handler := by
    have := matchP_handler p [.leftSquareBracket]
    rw [hm1] at this
    exact this
  have hq1s : q1.handler.stack = [] := by rw [hq1h, hs]
  have step2 : ∀ p2 : PState, p2.handler.stack = [] →
      ∃ e p3, (match (if (matchP p2 [.leftBrace]).1 then objectR fuel (matchP p2 [.leftBrace]).2
                      else (.ok (), (matchP p2 [.leftBrace]).2) : PRes Unit) with
               | (.error e, p3) => (.error e, p3)
               | (.ok _, p3) => ((.error .parseError, p3) : PRes Unit)) = (.error e, p3) ∧ OkErr e := by
    intro p2 hs2
    rcases hm2 : matchP p2 [.leftBrace] with ⟨b2, q2⟩
    have hq2h : q2.handler = p2.handler := by
      have := matchP_handler p2 [.leftBrace]
      rw [hm2] at this
      exact this
    have hq2s : ER q2.handler.stack := by rw [hq2h, hs2]; exact ER.nil
    cases b2
    · dsimp only
      exact ⟨.parseError, q2, rfl, Or.inl rfl⟩
    · dsimp only
      have hc := (parser_contract fuel).2.2.2.2.1 q2 hq2s
      rcases ho : objectR fuel q2 with ⟨res, p3⟩
      rw [ho] at hc
      rcases res with e | u
      · exact ⟨e, p3, rfl, hc⟩
      · exact ⟨.parseError, p3, rfl, Or.inl rfl⟩
  cases b1
  · dsimp only
    exact step2 q1 hq1s
  · dsimp only
    have hc := (parser_contract fuel).2.2.1 q1 (by rw [hq1s]; exact ER.nil)
    rcases hl : listR fuel q1 with ⟨res, p2⟩
    rw [hl] at hc
    rcases res with e | u
    · exact ⟨e, p2, rfl, hc⟩
    · dsimp only [ProcOk] at hc
      rw [hq1s] at hc
      have := StepOk_nil_inv _ hc
      exact step2 p2 this

theorem resetLoopF_handler : ∀ (f : Nat) (p : PState), (resetLoopF f p).handler = p.handler := by
  intro f
  induction f with
  | zero => intro p; rfl
  | succ f ih =>
      intro p
      simp only [resetLoopF]
      split
      · rfl
      · split
        · rfl
        · rw [ih (advanceP p), advanceP_handler]

/-- `reset` leaves the handler stack empty: it clears it up front and the
skip loop never touches the handler. -/
theorem resetR_stack (p : PState) : (resetR p).handler.stack = [] := by
  unfold resetR resetLoop
  rw [resetLoopF_handler]
  rfl

/-- The top-level loop `json`: entered at an empty handler stack, it
either returns normally or lets exactly a `ValueError`, a `TypeError`
or fuel exhaustion escape; every `ParseError` is caught inside. -/
theorem jsonR_contract : ∀ (fuel : Nat) (p : PState), p.handler.stack = [] →
    (∃ p2, jsonR fuel p = (.ok (), p2)) ∨
    (∃ p2, jsonR fuel p = (.error .valueError, p2) ∨
           jsonR fuel p = (.error .typeErrorBadCall, p2) ∨
           jsonR fuel p = (.error .outOfFuel, p2)) := by
  intro fuel
  induction fuel with
  | zero =>
      intro p hs
      right
      exact ⟨p, Or.inr (Or.inr rfl)⟩
  | succ fuel ih =>
      intro p hs
      simp only [jsonR]
      by_cases he : p.current.type = .eof
      · rw [if_pos he]
        left
        exact ⟨p, rfl⟩
      · rw [if_neg he]
        obtain ⟨e, p1, hbd, hok⟩ := brokenDocumentR_contract fuel p hs
        rw [hbd]
        rcases hok with h1 | h1 | h1 | h1 <;> subst h1
        · dsimp only
          exact ih (resetR p1) (resetR_stack p1)
        · dsimp only
          right
          exact ⟨p1, Or.inl rfl⟩
        · dsimp only
          right
          exact ⟨p1, Or.inr (Or.inl rfl)⟩
        · dsimp only
          right
          exact ⟨p1, Or.inr (Or.inr rfl)⟩

/-- The parser state built by `Parser.__init__` from a fresh scanner. -/
def initP (src : List Char) : PState :=
  let r := ScanS.nextTok (initScan src)
  { scanner := r.2, previous := Option.none, current := r.1,
    handler := { topLevel := [], stack := [] } }

theorem runParse_eq (fuel : Nat) (src : List Char) :
    runParse fuel src =
      (match jsonR fuel (initP src) with
       | (.ok _, p) => (.ok p.handler.topLevel, p)
       | (.error e, p) => (.error e, p)) := rfl

/-- The complete run: the result is a document list, or one of the two
genuine Python escapes, or fuel exhaustion. -/
theorem runParse_cases (fuel : Nat) (src : List Char) :
    (∃ docs, (runParse fuel src).1 = .ok docs) ∨
    (runParse fuel src).1 = .error .valueError ∨
    (runParse fuel src).1 = .error .typeErrorBadCall ∨
    (runParse fuel src).1 = .error .outOfFuel := by
  rw [runParse_eq]
  obtain ⟨p2, hok⟩ | ⟨p2, hcase⟩ := jsonR_contract fuel (initP src) rfl
  · rw [hok]
    exact Or.inl ⟨p2.handler.topLevel, rfl⟩
  · rcases hcase with h | h | h <;> rw [h]
    · exact Or.inr (Or.inl rfl)
    · exact Or.inr (Or.inr (Or.inl rfl))
    · exact Or.inr (Or.inr (Or.inr rfl))

/-- C2, counterexample to the claim as stated: `Parser.parse()` does not
return normally on every input.  On `["a" :]` the `string()` rule finds a
token other than a comma or closing bracket after the string, rewinds,
and calls `self.error(...)` with one argument against its two-parameter
signature — a `TypeError` that no `except` clause catches, so it
escapes `parse()` to the caller. -/
theorem claim_C2_counterexample :
    (runParse 20 (String.toList "[\"a\" :]")).1 = .error .typeErrorBadCall := by rfl

/-- C2, amended: grammar failures (`ParseError`) and string-scan
failures (`StringScanError`) are indeed all caught at the top-level
document loop — the run never surfaces either —, but `parse()` does not
always return normally: a malformed `\u` escape surfaces a `ValueError`
and a string followed by an unexpected token surfaces a `TypeError`
(plus `outOfFuel`, this model's stand-in for non-termination). -/
theorem claim_C2_amended_parse_error_containment (fuel : Nat) (src : List Char) :
    (∃ docs, (runParse fuel src).1 = .ok docs) ∨
    (runParse fuel src).1 = .error .valueError ∨
    (runParse fuel src).1 = .error .typeErrorBadCall ∨
    (runParse fuel src).1 = .error .outOfFuel :=
  runParse_cases fuel src

/-- C9: on every input and fuel, the run never hits the handler-level
failure modes — `assert False, "not reachable"` in
`BuildObjectHandler.element` (an object top with no pending name), nor
the `TypeError`/`IndexError` that a pending name without an object
below it would raise: whenever `element(value)` runs, the stack is
empty, a pending property name over its object, or an array. -/
theorem claim_C9_handler_invariant (fuel : Nat) (src : List Char) :
    (runParse fuel src).1 ≠ .error .assertFail ∧
    (runParse fuel src).1 ≠ .error .typeErrorHandler ∧
    (runParse fuel src).1 ≠ .error .indexErrorHandler := by
  rcases runParse_cases fuel src with ⟨docs, h⟩ | h | h | h <;>
    rw [h] <;>
    exact ⟨(fun hx => nomatch hx), (fun hx => nomatch hx), (fun hx => nomatch hx)⟩

/-- The resynchronization loop halts only at `EOF` or at a document
start (`[` / `\x7b`), and the scan cursor never moves backward while it
skips. -/
theorem resetLoop_target (q : PState) :
    ((resetLoop q).current.type = .eof ∨
     (resetLoop q).current.type = .leftSquareBracket ∨
     (resetLoop q).current.type = .leftBrace) ∧
    q.scanner.current ≤ (resetLoop q).scanner.current := by
  induction q using resetLoop_induct with
  | h1 q he =>
      rw [resetLoop_unfold, if_pos he]
      exact ⟨Or.inl he, le_refl _⟩
  | h2 q he hb =>
      rw [resetLoop_unfold, if_neg he, if_pos hb]
      rcases hb with hb | hb
      · exact ⟨Or.inr (Or.inl hb), le_refl _⟩
      · exact ⟨Or.inr (Or.inr hb), le_refl _⟩
  | h3 q he hb ih =>
      rw [resetLoop_unfold, if_neg he, if_neg hb]
      refine ⟨ih.1, le_trans ?_ ih.2⟩
      unfold advanceP
      rw [if_neg he]
      exact ScanS.nextTok_mono q.scanner

/-- C7, counterexample to the claim as stated.  On input `\x7b[` the
`property` rule fails at the `[` token (offset 1); resynchronization
(`reset`) stops immediately at that very `[` token: the next token
examined after the failure has the same start offset, not a strictly
greater one, and the scan is not at `END`. -/
theorem claim_C7_counterexample :
    ((brokenDocumentR 10 (initP (String.toList "\x7b["))).1 = Except.error Err.parseError) ∧
    ¬ ((resetR (brokenDocumentR 10 (initP (String.toList "\x7b["))).2).current.start >
         (brokenDocumentR 10 (initP (String.toList "\x7b["))).2.current.start ∨
       (resetR (brokenDocumentR 10 (initP (String.toList "\x7b["))).2).current.type = .eof) := by
  constructor
  · rfl
  · intro h
    rcases h with h | h
    · exact absurd h (by decide)
    · exact absurd h (by decide)

/-- C7, amended: resynchronization makes a weaker form of progress than
claimed.  After any failure, `reset` leaves the parser looking at `END`
or at a `[` / `\x7b` token, and it never moves the scan cursor backward
from where the failure (after any rewind) left it; but the token it
stops at can be the very token that triggered the failure (same start
offset), and after a property-name rewind even an earlier one. -/
theorem claim_C7_amended_resync_stops_at_document_start (p : PState) :
    ((resetR p).current.type = .eof ∨
     (resetR p).current.type = .leftSquareBracket ∨
     (resetR p).current.type = .leftBrace) ∧
    p.scanner.current ≤ (resetR p).scanner.current :=
  resetLoop_target { p with handler := hReset p.handler }

end PyJson
